import Mathlib

/-!
Verification of the per-email AI workspace cache and generation lifecycle of
the inbox-crm-cockpit Outlook add-in (client/src/ai/AiPanel.tsx and friends).

Strings are modelled as lists of characters (`Str`), matching the JS string
model (a sequence of UTF-16 code units; `Char.toNat` plays the role of
`charCodeAt` for the BMP characters that occur in practice).
-/

namespace Cockpit

abbrev Str := List Char

/-- Lift a Lean string literal into the model. -/
def str (s : String) : Str := s.data

/-- JS whitespace class (the members of /\s/ that occur in mail metadata). -/
def isJsWs (c : Char) : Bool :=
  c = ' ' || c = '\t' || c = '\n' || c = '\r' || c = '\x0b' || c = '\x0c'

/-- Drop trailing characters satisfying `p`. -/
def dropTrailing (p : Char → Bool) (s : Str) : Str :=
  (s.reverse.dropWhile p).reverse

/-- JS `String.prototype.trim` (over the modelled whitespace class). -/
def jsTrim (s : Str) : Str :=
  dropTrailing isJsWs (s.dropWhile isJsWs)

/-- Helper for `collapseWs`: the flag records whether the previous character
belonged to a whitespace run that has already emitted its single space. -/
def collapseWsAux : Bool → Str → Str
  | _, [] => []
  | prevWs, c :: t =>
      if isJsWs c then
        if prevWs then collapseWsAux true t else ' ' :: collapseWsAux true t
      else c :: collapseWsAux false t

/-- JS `.replace(/\s+/g, " ")`: collapse each whitespace run to one space. -/
def collapseWs (s : Str) : Str := collapseWsAux false s

/-- ASCII lower-casing of one character (JS `toLowerCase` on the inputs used). -/
def toLowerChar (c : Char) : Char :=
  if 'A' ≤ c ∧ c ≤ 'Z' then Char.ofNat (c.toNat + 32) else c

/-- JS `String.prototype.toLowerCase` (ASCII fragment). -/
def toLowerStr (s : Str) : Str := s.map toLowerChar

/-- JS `a || b` on strings: the empty string is the only falsy string. -/
def jsOr (a b : Str) : Str := if a = [] then b else a

/-- `normStr` from AiPanel.tsx: `String(s || "").trim()`. -/
def normStr (s : Str) : Str := jsTrim s

/-- `normEmail` from AiPanel.tsx: `normStr(s).toLowerCase()`. -/
def normEmail (s : Str) : Str := toLowerStr (normStr s)

/-- One iteration of the `fnv1a` loop of AiPanel.tsx.  The JS source updates
`h` with `h += (h<<1)+(h<<4)+(h<<7)+(h<<8)+(h<<24)` after `h ^= code`; each
shift is a 32-bit operation while the sum itself is exact, and every later
use of `h` reduces it mod 2^32, so the running value is tracked as a natural
number and reduced at the XOR and at the final `>>> 0`. -/
def fnv1aStep (h code : Nat) : Nat :=
  let t := (h % 4294967296) ^^^ code
  t + t * 2 % 4294967296 + t * 16 % 4294967296 + t * 128 % 4294967296
    + t * 256 % 4294967296 + t * 16777216 % 4294967296

/-- The 32-bit hash loop of `fnv1a` (AiPanel.tsx), before hex encoding:
seed 2166136261, one step per UTF-16 code unit, with the final `>>> 0`. -/
def fnv1aNum (s : Str) : Nat :=
  (s.foldl (fun h c => fnv1aStep h c.toNat) 2166136261) % 4294967296

/-- Hex digit characters. -/
def hexDigit (n : Nat) : Char := (str "0123456789abcdef").getD n '0'

/-- JS `Number.prototype.toString(16)` for an unsigned 32-bit value:
lower-case hex, no leading zeros, `"0"` for zero. -/
def toHex32 (n : Nat) : Str :=
  let ds := [n / 16 ^ 7 % 16, n / 16 ^ 6 % 16, n / 16 ^ 5 % 16, n / 16 ^ 4 % 16,
             n / 16 ^ 3 % 16, n / 16 ^ 2 % 16, n / 16 % 16, n % 16].map hexDigit
  let t := ds.dropWhile (· = '0')
  if t = [] then ['0'] else t

/-- `fnv1a` from AiPanel.tsx: unsigned 32-bit digest, hex-encoded. -/
def fnv1a (s : Str) : Str := toHex32 (fnv1aNum s)

/-- The fields AiPanel's `makeEmailKey` reads from its (duck-typed) context
argument.  A missing field is the empty string (JS `undefined` coerced via
`String(x || "")`). -/
structure KeyCtx where
  conversationId : Str := []
  internetMessageId : Str := []
  itemId : Str := []
  id : Str := []
  subject : Str := []
  fromEmail : Str := []
  fromField : Str := []   -- the `from` property read as `ctx.fromEmail || ctx.from`
  toEmail : Str := []
deriving Repr, DecidableEq

/-- `makeEmailKey` from AiPanel.tsx (identical code is duplicated in
App.tsx; both read the same fields in the same order). -/
def makeEmailKey (ctx : KeyCtx) : Str :=
  let cid := normStr ctx.conversationId
  let imid := normStr ctx.internetMessageId
  let itemId := normStr (jsOr ctx.itemId ctx.id)
  if cid ≠ [] ∧ imid ≠ [] then cid ++ str "::" ++ imid
  else if cid ≠ [] ∧ itemId ≠ [] then cid ++ str "::" ++ itemId
  else
    let subject := toLowerStr (collapseWs (normStr ctx.subject))
    let fromAddr := normEmail (jsOr ctx.fromEmail ctx.fromField)
    let toAddr := normEmail (jsOr ctx.toEmail [])
    str "nocid::h" ++ fnv1a (subject ++ str "|" ++ fromAddr ++ str "|" ++ toAddr)

/-- Standard FNV-1a over 32 bits: seed 0x811C9DC5, multiply by the prime
16777619 modulo 2^32 after each XOR.  Written from the specification's
wording, to be compared with the source-derived `fnv1a`. -/
def fnvSpecNum (s : Str) : Nat :=
  s.foldl (fun h c => (h ^^^ c.toNat) * 16777619 % 4294967296) 2166136261

/-- The identity resolver as the specification words it: `thread::message`
when both a thread (conversation) identifier and a message identifier are
present; else `thread::item` when a thread identifier and a host item
identifier are present; otherwise `nocid::h<hash>` with the FNV-1a digest of
the pipe-joined tuple (subject lower-cased with whitespace collapsed, sender
address lower-cased, primary-recipient address lower-cased). -/
def makeEmailKeySpec (ctx : KeyCtx) : Str :=
  let thread := normStr ctx.conversationId
  let message := normStr ctx.internetMessageId
  let item := normStr (jsOr ctx.itemId ctx.id)
  if thread ≠ [] ∧ message ≠ [] then thread ++ str "::" ++ message
  else if thread ≠ [] ∧ item ≠ [] then thread ++ str "::" ++ item
  else
    let subjectPart := toLowerStr (collapseWs (normStr ctx.subject))
    let senderPart := toLowerStr (normStr (jsOr ctx.fromEmail ctx.fromField))
    let recipientPart := toLowerStr (normStr ctx.toEmail)
    str "nocid::h"
      ++ toHex32 (fnvSpecNum (subjectPart ++ str "|" ++ senderPart ++ str "|" ++ recipientPart))

/-- The host mail context type (`OutlookMessageContext` in office.ts): it
carries `toRecipients`/`ccRecipients` lists but no `toEmail`, no `id` and no
`from` field. -/
structure Recipient where
  name : Str
  email : Str
deriving Repr, DecidableEq

structure OutlookMessageContext where
  subject : Str := []
  fromEmail : Str := []
  fromName : Str := []
  internetMessageId : Str := []
  conversationId : Str := []
  itemId : Str := []
  receivedDateTimeIso : Str := []
  toRecipients : List Recipient := []
  ccRecipients : List Recipient := []
deriving Repr, DecidableEq

/-- How an `OutlookMessageContext` is seen by `makeEmailKey`: the fields
`id`, `from` and `toEmail` do not exist on the type, so the duck-typed reads
of those properties yield the empty string. -/
def keyCtxOfOutlook (c : OutlookMessageContext) : KeyCtx :=
  { conversationId := c.conversationId
    internetMessageId := c.internetMessageId
    itemId := c.itemId
    id := []
    subject := c.subject
    fromEmail := c.fromEmail
    fromField := []
    toEmail := [] }

/-! ### Time-boxed key-value namespaces (localStorage maps, 5-day retention) -/

/-- `WORKSPACE_KEEP_MS = AI_HISTORY_KEEP_MS = 5 * 24 * 60 * 60 * 1000`. -/
def RETENTION_MS : Nat := 5 * 24 * 60 * 60 * 1000

/-- JS object maps are modelled as association lists with unique keys. -/
def alLookup {α : Type} : List (Str × α) → Str → Option α
  | [], _ => none
  | p :: t, k => if p.1 = k then some p.2 else alLookup t k

/-- JS `obj[k] = v`: overwrite in place, else append. -/
def alSet {α : Type} : List (Str × α) → Str → α → List (Str × α)
  | [], k, v => [(k, v)]
  | p :: t, k, v => if p.1 = k then (k, v) :: t else p :: alSet t k v

/-- JS `x || undefined` for strings. -/
def optOf (x : Str) : Option Str := if x = [] then none else some x

structure SummaryRec where
  ts : Nat
  text : Str
  conversationId : Str := []
deriving Repr, DecidableEq

abbrev SummaryMap := List (Str × SummaryRec)

/-- `loadSummary` (AiPanel.tsx): value of a summary record iff not expired.
It reads the namespace without modifying it. -/
def loadSummary (now : Nat) (m : SummaryMap) (key : Str) : Str :=
  match alLookup m key with
  | none => []
  | some r => if now - r.ts > RETENTION_MS then [] else r.text

/-- The prune loop inside `upsertSummary`: drop records whose `ts` is falsy
(0) or older than the retention window. -/
def pruneSummaries (now : Nat) (m : SummaryMap) : SummaryMap :=
  m.filter fun p => decide (¬(p.2.ts = 0 ∨ now - p.2.ts > RETENTION_MS))

/-- The storage state after AiPanel's `loadSummary`: the function only
calls `localStorage.getItem`, never `setItem`, so the namespace is left
exactly as it was (expired records included). -/
def summariesAfterLoad (m : SummaryMap) : SummaryMap := m

structure SummaryEvent where
  emailKey : Str
  conversationId : Str
deriving Repr, DecidableEq

/-- `upsertSummary` (AiPanel.tsx): write `{ts: now, text, conversationId}`
under `key`, prune the namespace, persist, then broadcast the
`icc-summary-updated` event carrying `{emailKey, conversationId}`. -/
def upsertSummary (now : Nat) (key text cid : Str) (m : SummaryMap) :
    SummaryMap × SummaryEvent :=
  (pruneSummaries now (alSet m key { ts := now, text := text, conversationId := cid }),
   { emailKey := key, conversationId := cid })

inductive Preset | reply | replyAll | custom
deriving Repr, DecidableEq

structure SlotRec where
  html : Option Str := none
  text : Option Str := none
  ts : Option Nat := none
deriving Repr, DecidableEq

/-- `EmailWorkspace` records as persisted. `updatedAt = 0` stands for a
missing/falsy timestamp (the code treats `!updatedAt` as invalid). -/
structure WsRec where
  key : Str := []
  ts : Nat := 0
  updatedAt : Nat := 0
  conversationId : Str := []
  subject : Str := []
  summary : Option Str := none
  tplPickId : Option Str := none
  composeNotes : Option Str := none
  rewriteText : Option Str := none
  recipientPreset : Option Preset := none
  replyAll : Bool := false
  includeBodyEmails : Bool := true
  attachOriginalItem : Bool := false
  activeOption : Option Nat := none
  results : Option (List SlotRec) := none
  htmlOut : Option Str := none
  textOut : Option Str := none
deriving Repr, DecidableEq

abbrev WsMap := List (Str × WsRec)

/-- The filter-and-normalize loop of `loadWorkspaces`: keep a record iff its
`updatedAt` is truthy and within the retention window, stamping the map key
back into the record. -/
def pruneWorkspaces (now : Nat) (m : WsMap) : WsMap :=
  (m.filter fun p => decide (¬(p.2.updatedAt = 0 ∨ now - p.2.updatedAt > RETENTION_MS))).map
    fun p => (p.1, { p.2 with key := p.1 })

/-- `loadWorkspaces` (AiPanel.tsx): deserialize, prune, return. -/
def loadWorkspaces (now : Nat) (m : WsMap) : WsMap := pruneWorkspaces now m

/-- The storage state after `loadWorkspaces`: the pruned map is written back
only when some record was dropped. -/
def workspacesAfterLoad (now : Nat) (m : WsMap) : WsMap :=
  if (pruneWorkspaces now m).length = m.length then m else pruneWorkspaces now m

/-- `saveWorkspace` (AiPanel.tsx): reload (pruning), set, persist. -/
def saveWorkspace (now : Nat) (ws : WsRec) (m : WsMap) : WsMap :=
  alSet (pruneWorkspaces now m) ws.key ws

/-- `loadWorkspace` (AiPanel.tsx): stored record or a fresh one. -/
def loadWorkspace (now : Nat) (key : Str) (m : WsMap) : WsRec :=
  match alLookup (pruneWorkspaces now m) key with
  | some w => w
  | none => { key := key, ts := now, updatedAt := now }

structure HistEntry where
  id : Str
  ts : Nat
  emailKey : Str
  conversationId : Str
  subject : Str := []
  html : Option Str := none
  text : Option Str := none
deriving Repr, DecidableEq

/-- The retention filter shared by `loadAiHistory` and `saveAiHistory`. -/
def pruneHistory (now : Nat) (l : List HistEntry) : List HistEntry :=
  l.filter fun x => decide (now - x.ts ≤ RETENTION_MS)

/-- `loadAiHistory` (v2 path): prune by age and persist the pruned list. -/
def loadAiHistory (now : Nat) (l : List HistEntry) : List HistEntry :=
  pruneHistory now l

/-- `saveAiHistory`: prune by age, then keep only the last 300 entries
(`slice(-300)`). -/
def saveAiHistory (now : Nat) (l : List HistEntry) : List HistEntry :=
  let p := pruneHistory now l
  p.drop (p.length - 300)

/-! ### Generation lifecycle controller (`run` in AiPanel.tsx) -/

inductive Action | summarize | reply | tasks | rewrite
deriving Repr, DecidableEq

structure Slot where
  html : Str := []
  text : Str := []
  ts : Nat := 0
deriving Repr, DecidableEq

def makeEmptySlots : List Slot := [{}, {}, {}]

/-- `setHtmlOut`: write the html of the active result slot (`activeOption`
is always 0..2 and the slot list always has length 3, so the JS index
assignment is an in-range `List.set`). -/
def setSlotHtml (now active : Nat) (slots : List Slot) (v : Str) : List Slot :=
  let next := if slots.isEmpty then makeEmptySlots else slots
  let cur := next.getD active {}
  next.set active { cur with html := v, ts := now }

/-- `setTextOut`: write the text of the active result slot. -/
def setSlotText (now active : Nat) (slots : List Slot) (v : Str) : List Slot :=
  let next := if slots.isEmpty then makeEmptySlots else slots
  let cur := next.getD active {}
  next.set active { cur with text := v, ts := now }

/-- The component state `run` reads and writes.  `emailKey`,
`conversationId` and `subject` are the identity/context values the component
currently sees (they change when the user switches emails). -/
structure UiState where
  emailKey : Str := []
  conversationId : Str := []
  subject : Str := []
  resultSlots : List Slot := makeEmptySlots
  activeOption : Nat := 0
  resultViewHtml : Bool := true
  busy : Bool := false
  err : Str := []
  notice : Str := []
  sheet : Str := []
  tplPickId : Str := []
  composeNotes : Str := []
  rewriteText : Str := []
  recipientPreset : Preset := Preset.reply
  replyAll : Bool := false
  includeBodyEmails : Bool := true
  attachOriginalItem : Bool := false
deriving Repr, DecidableEq

structure Store where
  summaries : SummaryMap := []
  workspaces : WsMap := []
  history : List HistEntry := []
deriving Repr, DecidableEq

structure GenRes where
  html : Str := []
  text : Str := []
deriving Repr, DecidableEq

structure RunOutcome where
  ui : UiState
  store : Store
  event : Option SummaryEvent := none
deriving Repr, DecidableEq

/-- The synchronous prefix of `run`, executed before awaiting the generator:
clear error/notice, set busy, capture `runEmailKey`/`runConversationId`
(passed separately), and for non-summarize actions clear the previous output
of the active result slot. -/
def runStart (action : Action) (now : Nat) (s : UiState) : UiState :=
  let s := { s with err := [], notice := [], busy := true }
  if action ≠ Action.summarize then
    { s with resultSlots := setSlotText now s.activeOption (setSlotHtml now s.activeOption s.resultSlots []) [] }
  else s

/-- Everything `run` does after `aiGenerate` settles, as a function of the
component state `s` and storage `st` at that instant.  `runKey`/`runCid`
are the identity captured by `runStart`; `sanitize` and `stripHtml` stand
for the DOM-based `sanitizeAiHtml` and `stripHtml` helpers. -/
def runComplete (action : Action) (runKey runCid : Str)
    (sanitize stripHtml : Str → Str) (gen : Except Str GenRes) (now : Nat)
    (s : UiState) (st : Store) : RunOutcome :=
  match gen with
  | Except.error e => { ui := { s with err := e, busy := false }, store := st }
  | Except.ok r =>
      let safeHtml := sanitize r.html
      let plainTxt := if jsTrim r.text ≠ [] then jsTrim r.text else stripHtml safeHtml
      if action = Action.summarize then
        if runKey ≠ [] ∧ plainTxt ≠ [] then
          let res := upsertSummary now runKey plainTxt runCid st.summaries
          { ui := { s with notice := str "Resumo atualizado.", sheet := [], busy := false },
            store := { st with summaries := res.1 }, event := some res.2 }
        else
          { ui := { s with sheet := [], busy := false }, store := st }
      else if runKey ≠ s.emailKey then
        let ws : WsRec :=
          { key := runKey, ts := now, updatedAt := now, conversationId := runCid,
            subject := s.subject,
            summary := optOf (loadSummary now st.summaries runKey),
            tplPickId := optOf s.tplPickId,
            composeNotes := optOf s.composeNotes,
            rewriteText := optOf s.rewriteText,
            recipientPreset := some s.recipientPreset,
            replyAll := s.replyAll,
            includeBodyEmails := s.includeBodyEmails,
            attachOriginalItem := s.attachOriginalItem,
            htmlOut := optOf safeHtml,
            textOut := optOf plainTxt }
        { ui := { s with
            notice := str "O email mudou durante a geração; o resultado ficou guardado no email anterior.",
            sheet := [], busy := false },
          store := { st with workspaces := saveWorkspace now ws st.workspaces } }
      else
        { ui := { s with
            resultSlots := setSlotText now s.activeOption (setSlotHtml now s.activeOption s.resultSlots safeHtml) plainTxt,
            resultViewHtml := safeHtml ≠ [],
            sheet := [], busy := false },
          store := st }

/-! ### Recipient resolution engine -/

/-- Recipient origins.  The JS value `"from"` is spelled `fromSender`
(`from` is a Lean keyword). -/
inductive Origin | fromSender | to | cc | body | manual
deriving Repr, DecidableEq

inductive Role | to | cc | bcc
deriving Repr, DecidableEq

/-- `RecipientRow`.  The JS field `include` is spelled `incl` (`include` is
a Lean keyword); a missing `name` is the empty string (JS truthiness). -/
structure RecipientRow where
  email : Str
  name : Str := []
  origins : List Origin := []
  incl : Bool := false
  role : Role := Role.cc
deriving Repr, DecidableEq

/-- `^[<\(\[]+` class of `normalizeEmailCandidate`. -/
def isLeadJunk (c : Char) : Bool := c = '<' || c = '(' || c = '['

/-- `[>\)\],.;:\s]+$` class of `normalizeEmailCandidate`. -/
def isTrailJunk (c : Char) : Bool :=
  c = '>' || c = ')' || c = ']' || c = ',' || c = '.' || c = ';' || c = ':' || isJsWs c

/-- `normalizeEmailCandidate` (AiPanel.tsx): trim, strip the leading
bracket run and the trailing junk run, trim and lower-case, then require an
`@` and length at least 5 (else the empty string). -/
def normalizeEmailCandidate (raw : Str) : Str :=
  let s1 := jsTrim raw
  let s2 := dropTrailing isTrailJunk (s1.dropWhile isLeadJunk)
  let s3 := toLowerStr (jsTrim s2)
  if '@' ∈ s3 ∧ 5 ≤ s3.length then s3 else []

/-- `Array.from(new Set(...))`: deduplicate keeping first occurrences. -/
def dedupKeepFirst {α : Type} [DecidableEq α] : List α → List α
  | [] => []
  | x :: t => x :: (dedupKeepFirst t).filter fun y => decide (y ≠ x)

/-- `mergeOrigins` (AiPanel.tsx). -/
def mergeOrigins (a b : List Origin) : List Origin := dedupKeepFirst (a ++ b)

/-- Mutate the first list element satisfying `p` (JS `rows.find(...)`
followed by in-place mutation of the found row). -/
def updateFirst {α : Type} (p : α → Bool) (f : α → α) : List α → List α
  | [] => []
  | x :: t => if p x then f x :: t else x :: updateFirst p f t

/-- The `push` closure of `buildHeaderRows`: normalize, skip empty and the
local user's own address, merge origins/name into an existing row, else
append a fresh excluded row with role `cc`. -/
def pushRow (my : Str) (rows : List RecipientRow) (email name : Str)
    (origin : Origin) : List RecipientRow :=
  let e := normalizeEmailCandidate email
  if e = [] then rows
  else if my ≠ [] ∧ e = my then rows
  else if rows.any fun r => decide (r.email = e) then
    updateFirst (fun r => decide (r.email = e))
      (fun r => { r with origins := mergeOrigins r.origins [origin],
                         name := if r.name = [] ∧ name ≠ [] then name else r.name }) rows
  else rows ++ [{ email := e, name := name, origins := [origin], incl := false, role := Role.cc }]

/-- `buildHeaderRows` (AiPanel.tsx): sender first, then To, then Cc. -/
def buildHeaderRows (ctx : OutlookMessageContext) (my : Str) : List RecipientRow :=
  let rows := pushRow my [] ctx.fromEmail ctx.fromName Origin.fromSender
  let rows := ctx.toRecipients.foldl (fun rs r => pushRow my rs r.email r.name Origin.to) rows
  ctx.ccRecipients.foldl (fun rs r => pushRow my rs r.email r.name Origin.cc) rows

/-- The first loop of `applyPreset`: demote every row. -/
def clearRow (r : RecipientRow) : RecipientRow := { r with incl := false, role := Role.cc }

/-- `applyPreset` (AiPanel.tsx), as a pure function on the row list. -/
def applyPreset (rows : List RecipientRow) (preset : Preset)
    (ctx : OutlookMessageContext) (my : Str) : List RecipientRow :=
  let fromA := normalizeEmailCandidate ctx.fromEmail
  let rows1 := rows.map clearRow
  let rows2 :=
    if preset = Preset.reply ∨ preset = Preset.replyAll then
      if fromA ≠ [] ∧ (my = [] ∨ fromA ≠ my) then
        if rows1.any fun r => decide (r.email = fromA) then
          updateFirst (fun r => decide (r.email = fromA))
            (fun r => { r with incl := true, role := Role.to }) rows1
        else
          { email := fromA, name := ctx.fromName, origins := [Origin.fromSender],
            incl := true, role := Role.to } :: rows1
      else rows1
    else rows1
  if preset = Preset.replyAll then
    rows2.map fun r =>
      if (my ≠ [] ∧ r.email = my) ∨ (fromA ≠ [] ∧ r.email = fromA) then r
      else if r.origins.any fun o => decide (o = Origin.to ∨ o = Origin.cc) then
        { r with incl := true, role := Role.cc }
      else r
  else rows2

/-- The clear-and-mark-sender stage shared by the `reply` and `replyAll`
branches of `applyPreset` (a restatement of the same source lines, used to
factor the proofs). -/
def applyPresetMid (rows : List RecipientRow) (ctx : OutlookMessageContext)
    (my : Str) : List RecipientRow :=
  if normalizeEmailCandidate ctx.fromEmail ≠ []
      ∧ (my = [] ∨ normalizeEmailCandidate ctx.fromEmail ≠ my) then
    if (rows.map clearRow).any
        fun r => decide (r.email = normalizeEmailCandidate ctx.fromEmail) then
      updateFirst (fun r => decide (r.email = normalizeEmailCandidate ctx.fromEmail))
        (fun r => { r with incl := true, role := Role.to }) (rows.map clearRow)
    else
      { email := normalizeEmailCandidate ctx.fromEmail, name := ctx.fromName,
        origins := [Origin.fromSender], incl := true, role := Role.to } :: rows.map clearRow
  else rows.map clearRow

/-- The normalize/deduplicate tail of `extractEmailsFromText`, applied to
the raw regex matches (mailto captures followed by bare-address matches). -/
def cleanCandidatesAux (seen : List Str) : List Str → List Str
  | [] => []
  | x :: t =>
      let e := normalizeEmailCandidate x
      if e = [] ∨ e ∈ seen then cleanCandidatesAux seen t
      else e :: cleanCandidatesAux (e :: seen) t

def cleanCandidates (rawMatches : List Str) : List Str :=
  cleanCandidatesAux [] rawMatches

/-- The body-scan harvesting effect (AiPanel.tsx): for each found address,
skip the local user, merge a `body` origin into an existing row, else append
an excluded `cc` row. -/
def harvestBodyEmails (my : Str) (found : List Str)
    (rows : List RecipientRow) : List RecipientRow :=
  found.foldl
    (fun rs e =>
      if my ≠ [] ∧ e = my then rs
      else if rs.any fun r => decide (r.email = e) then
        updateFirst (fun r => decide (r.email = e))
          (fun r => { r with origins := mergeOrigins r.origins [Origin.body] }) rs
      else rs ++ [{ email := e, name := [], origins := [Origin.body], incl := false, role := Role.cc }])
    rows

/-- `addManualRecipient` (AiPanel.tsx), acting on the row list. -/
def addManualRecipient (addEmail : Str) (addRole : Role)
    (rows : List RecipientRow) : List RecipientRow :=
  let e := normalizeEmailCandidate addEmail
  if e = [] then rows
  else if rows.any fun r => decide (r.email = e) then
    updateFirst (fun r => decide (r.email = e))
      (fun r => { r with origins := mergeOrigins r.origins [Origin.manual],
                         incl := true, role := addRole }) rows
  else rows ++ [{ email := e, name := [], origins := [Origin.manual], incl := true, role := addRole }]

/-- `onToggleInclude` (AiPanel.tsx). -/
def onToggleInclude (emailAddr : Str) (checked : Bool)
    (rows : List RecipientRow) : List RecipientRow :=
  rows.map fun r => if r.email = emailAddr then { r with incl := checked } else r

/-- `onChangeRole` (AiPanel.tsx). -/
def onChangeRole (emailAddr : Str) (role : Role)
    (rows : List RecipientRow) : List RecipientRow :=
  rows.map fun r => if r.email = emailAddr then { r with role := role } else r

/-- The claim's normalization: trimmed and lower-cased. -/
def normTL (s : Str) : Str := toLowerStr (jsTrim s)

/-- Row-set invariant: one row per email address, every address a fixed
point of trim+lower-case normalization. -/
def RowsInv (rows : List RecipientRow) : Prop :=
  (rows.map fun r => r.email).Nodup ∧ ∀ r ∈ rows, normTL r.email = r.email

/-- Origins only accumulate: every old row keeps a row with the same email
whose origin set contains the old one. -/
def originsGrow (old new : List RecipientRow) : Prop :=
  ∀ r ∈ old, ∃ r' ∈ new, r'.email = r.email ∧ r.origins ⊆ r'.origins

/-! ### The auto-summary effect (AiPanel.tsx, the `useEffect` at 941-986)

`autoSummaryStateRef` keeps, per email key, an in-flight flag and the time
of the last attempt (`0` models JS `undefined`, which is falsy exactly
like the number `0` in the throttle check `st.lastAttempt && ...`).  The
effect body, the scheduled 350 ms timeout, the `finally` of the `run`
call and the effect cleanup are the four events of a small transition
system; `starts` logs each attempt the guards let through. -/

structure AutoState where
  inflight : Bool := false
  lastAttempt : Nat := 0
deriving DecidableEq, Repr

def alGetA (m : List (Str × AutoState)) (k : Str) : AutoState :=
  (alLookup m k).getD {}

structure AutoModel where
  states : List (Str × AutoState) := []
  currentKey : Str := []
  pending : Option Str := none
  running : List Str := []
  starts : List (Str × Nat) := []
deriving DecidableEq, Repr

inductive AutoEvent
  | effectRun (key : Str) (now : Nat) (convId : Str) (summaries : SummaryMap)
      (rawBody body : Str)
  | timerFire
  | runDone (key : Str)
  | cleanup (key : Str)
deriving DecidableEq

/-- One event of the auto-summary lifecycle.  `effectRun` is the effect
body (the sibling effect keeps `currentEmailKeyRef` equal to the current
key); `timerFire` is the 350 ms timeout firing (the callback cancels when
the user switched e-mails, but its `finally` clears the in-flight flag
either way); `runDone` is `run("summarize")` settling; `cleanup` is the
effect cleanup (clear the timer, clear the in-flight flag). -/
def autoStep (s : AutoModel) : AutoEvent → AutoModel
  | .effectRun key now convId summaries rawBody body =>
      let base := { s with currentKey := key }
      if convId = [] then base
      else if key = [] then base
      else if loadSummary now summaries key ≠ [] then base
      else if jsTrim (jsOr rawBody body) = [] then base
      else
        let st := alGetA s.states key
        if st.inflight then base
        else if st.lastAttempt ≠ 0 ∧ now - st.lastAttempt < 30000 then base
        else
          { base with
            states := alSet s.states key { inflight := true, lastAttempt := now },
            pending := some key,
            starts := s.starts ++ [(key, now)] }
  | .timerFire =>
      match s.pending with
      | none => s
      | some k =>
          if s.currentKey = k then
            { s with pending := none, running := s.running ++ [k] }
          else
            { s with
              pending := none
              states := alSet s.states k { alGetA s.states k with inflight := false } }
  | .runDone k =>
      if k ∈ s.running then
        { s with
          running := s.running.erase k
          states := alSet s.states k { alGetA s.states k with inflight := false } }
      else s
  | .cleanup k =>
      { s with
        pending := none
        states := alSet s.states k { alGetA s.states k with inflight := false } }

def autoRun (s : AutoModel) : List AutoEvent → AutoModel
  | [] => s
  | e :: es => autoRun (autoStep s e) es

/-- The times at which attempts for key `k` were started, in order. -/
def startTimes (k : Str) (s : AutoModel) : List Nat :=
  (s.starts.filter fun p => decide (p.1 = k)).map Prod.snd

/-- The `now` stamps of the `effectRun` events of a trace. -/
def trTimes (tr : List AutoEvent) : List Nat :=
  tr.filterMap fun e =>
    match e with
    | .effectRun _ now _ _ _ _ => some now
    | _ => none

/-! ### Marker-block insertion (AiPanel.tsx `wrapAiBlock`,
`replaceOrInsertAiBlock`)

Strings are `List Char`; `countOcc pat s` counts the positions of `s` at
which `pat` occurs (one test per suffix of `s`), `includesStr` is JS
`String.prototype.includes`, `splitHead sep s` is `s.split(sep)[0]` and
`jsSplitSecond sep s` is `s.split(sep)[1] || ""` (the segment between the
first and the second occurrence of `sep`, or everything after the first
occurrence when there is no second one). -/

def countOcc (pat : Str) : Str → Nat
  | [] => if List.isPrefixOf pat [] then 1 else 0
  | c :: rest =>
      (if List.isPrefixOf pat (c :: rest) then 1 else 0) + countOcc pat rest

def includesStr (pat : Str) : Str → Bool
  | [] => List.isPrefixOf pat []
  | c :: rest => List.isPrefixOf pat (c :: rest) || includesStr pat rest

def splitHead (sep : Str) : Str → Str
  | [] => []
  | c :: rest =>
      if List.isPrefixOf sep (c :: rest) then [] else c :: splitHead sep rest

def splitTail (sep : Str) : Str → Option Str
  | [] => none
  | c :: rest =>
      if List.isPrefixOf sep (c :: rest) then some (List.drop sep.length (c :: rest))
      else splitTail sep rest

def jsSplitSecond (sep s : Str) : Str :=
  match splitTail sep s with
  | none => []
  | some t => splitHead sep t

def AI_BLOCK_START : Str := str "<!--ICC_AI_START-->"

def AI_BLOCK_END : Str := str "<!--ICC_AI_END-->"

/-- `wrapAiBlock` (AiPanel.tsx): sentinel comments around a tagged div. -/
def wrapAiBlock (innerHtml : Str) : Str :=
  AI_BLOCK_START ++ (str "<div data-icc-ai=\x221\x22>" ++ (innerHtml ++ (str "</div>" ++ AI_BLOCK_END)))

/-- `replaceOrInsertAiBlock` (AiPanel.tsx), as a function from the current
draft body to the body written back: when both sentinels are present the
body becomes `split(START)[0] + block + (split(END)[1] || "")`, otherwise
the block is prepended. -/
def replaceOrInsertAiBlock (current htmlBlock : Str) : Str :=
  if includesStr AI_BLOCK_START current && includesStr AI_BLOCK_END current then
    splitHead AI_BLOCK_START current ++ htmlBlock ++ jsSplitSecond AI_BLOCK_END current
  else htmlBlock ++ current

/-! ### Equivalence of the source hash loop with standard FNV-1a -/

theorem jsOr_nil (a : Str) : jsOr a [] = a := by
  unfold jsOr; split <;> simp_all

theorem fnv1aStep_mod (h code : Nat) :
    fnv1aStep h code % 4294967296
      = ((h % 4294967296) ^^^ code) * 16777619 % 4294967296 := by
  simp only [fnv1aStep]
  generalize (h % 4294967296) ^^^ code = t
  omega

theorem fnv_fold_mod (s : Str) : ∀ h : Nat,
    (s.foldl (fun h c => fnv1aStep h c.toNat) h) % 4294967296
      = s.foldl (fun h c => (h ^^^ c.toNat) * 16777619 % 4294967296) (h % 4294967296) := by
  induction s with
  | nil => intro h; rfl
  | cons c t ih =>
      intro h
      simp only [List.foldl_cons]
      rw [ih, fnv1aStep_mod]

theorem fnv1aNum_eq_spec (s : Str) : fnv1aNum s = fnvSpecNum s := by
  unfold fnv1aNum fnvSpecNum
  rw [fnv_fold_mod]

/-- The fallback branch of `makeEmailKey`, spelled out. -/
theorem makeEmailKey_fallback (c : KeyCtx)
    (h1 : ¬(normStr c.conversationId ≠ [] ∧ normStr c.internetMessageId ≠ []))
    (h2 : ¬(normStr c.conversationId ≠ [] ∧ normStr (jsOr c.itemId c.id) ≠ [])) :
    makeEmailKey c
      = str "nocid::h"
        ++ fnv1a (toLowerStr (collapseWs (normStr c.subject)) ++ str "|"
                   ++ normEmail (jsOr c.fromEmail c.fromField) ++ str "|"
                   ++ normEmail c.toEmail) := by
  unfold makeEmailKey
  rw [if_neg h1, if_neg h2, jsOr_nil]

theorem makeEmailKey_eq_keySpec (c : KeyCtx) : makeEmailKey c = makeEmailKeySpec c := by
  unfold makeEmailKey makeEmailKeySpec
  simp only [fnv1a, fnv1aNum_eq_spec, jsOr_nil, normEmail]

/-- C2: the identity resolver returns `thread::message` when both a
conversation and a message identifier are present, else `thread::item` when
a conversation and a host item identifier are present, and otherwise the
fallback key `nocid::h<hash>` where the hash is the unsigned 32-bit FNV-1a
digest (seed 0x811C9DC5), hex-encoded, of the pipe-joined tuple (subject
lower-cased with whitespace collapsed, sender address lower-cased,
primary-recipient address lower-cased) — stated as equality with
`makeEmailKeySpec`, the definition written from the claim's wording with
the standard multiply-by-prime FNV-1a loop. -/
theorem C2_identity_resolver (ctx : KeyCtx) : makeEmailKey ctx = makeEmailKeySpec ctx :=
  makeEmailKey_eq_keySpec ctx

/-- C10: on the fallback branch, `makeEmailKey` reads the primary-recipient
component from a `toEmail` field that `OutlookMessageContext` never carries,
so the third hashed component is always empty and two contexts agreeing on
subject and sender address get the identical fallback key regardless of
their To/Cc recipient lists. -/
theorem C10_fallback_ignores_recipients (c1 c2 : OutlookMessageContext)
    (h1 : ¬(normStr c1.conversationId ≠ [] ∧ normStr c1.internetMessageId ≠ []))
    (h2 : ¬(normStr c1.conversationId ≠ [] ∧ normStr c1.itemId ≠ []))
    (h3 : ¬(normStr c2.conversationId ≠ [] ∧ normStr c2.internetMessageId ≠ []))
    (h4 : ¬(normStr c2.conversationId ≠ [] ∧ normStr c2.itemId ≠ []))
    (hs : c1.subject = c2.subject) (hf : c1.fromEmail = c2.fromEmail) :
    makeEmailKey (keyCtxOfOutlook c1) = makeEmailKey (keyCtxOfOutlook c2) ∧
    makeEmailKey (keyCtxOfOutlook c1)
      = str "nocid::h"
        ++ fnv1a (toLowerStr (collapseWs (normStr c1.subject)) ++ str "|"
                   ++ normEmail c1.fromEmail ++ str "|") := by
  have h2' : ¬(normStr (keyCtxOfOutlook c1).conversationId ≠ []
      ∧ normStr (jsOr (keyCtxOfOutlook c1).itemId (keyCtxOfOutlook c1).id) ≠ []) := by
    simpa [keyCtxOfOutlook, jsOr_nil] using h2
  have h4' : ¬(normStr (keyCtxOfOutlook c2).conversationId ≠ []
      ∧ normStr (jsOr (keyCtxOfOutlook c2).itemId (keyCtxOfOutlook c2).id) ≠ []) := by
    simpa [keyCtxOfOutlook, jsOr_nil] using h4
  have h1' : ¬(normStr (keyCtxOfOutlook c1).conversationId ≠ []
      ∧ normStr (keyCtxOfOutlook c1).internetMessageId ≠ []) := h1
  have h3' : ¬(normStr (keyCtxOfOutlook c2).conversationId ≠ []
      ∧ normStr (keyCtxOfOutlook c2).internetMessageId ≠ []) := h3
  rw [makeEmailKey_fallback _ h1' h2', makeEmailKey_fallback _ h3' h4']
  have hnil : normEmail ([] : Str) = [] := rfl
  constructor
  · simp [keyCtxOfOutlook, jsOr_nil, hs, hf]
  · simp [keyCtxOfOutlook, jsOr_nil, hnil]

theorem C10_witness :
    (¬(normStr (str "") ≠ [] ∧ normStr (str "") ≠ [])) ∧
    makeEmailKey (keyCtxOfOutlook
        { subject := str "Hello", fromEmail := str "bob@x.com",
          toRecipients := [{ name := str "Ann", email := str "ann@y.com" }] })
      = makeEmailKey (keyCtxOfOutlook
        { subject := str "Hello", fromEmail := str "bob@x.com",
          ccRecipients := [{ name := str "Cid", email := str "cid@z.com" }] }) :=
  ⟨by decide,
   (C10_fallback_ignores_recipients
      { subject := str "Hello", fromEmail := str "bob@x.com",
        toRecipients := [{ name := str "Ann", email := str "ann@y.com" }] }
      { subject := str "Hello", fromEmail := str "bob@x.com",
        ccRecipients := [{ name := str "Cid", email := str "cid@z.com" }] }
      (by decide) (by decide) (by decide) (by decide) rfl rfl).1⟩

/-! ### Association-list lemmas -/

theorem alLookup_alSet_self {α : Type} (m : List (Str × α)) (k : Str) (v : α) :
    alLookup (alSet m k v) k = some v := by
  induction m with
  | nil => simp [alSet, alLookup]
  | cons p t ih =>
      by_cases h : p.1 = k
      · simp [alSet, alLookup, h]
      · simp [alSet, alLookup, h, ih]

theorem alLookup_alSet_ne {α : Type} (m : List (Str × α)) (k k' : Str) (v : α)
    (h : k' ≠ k) : alLookup (alSet m k v) k' = alLookup m k' := by
  induction m with
  | nil => simp [alSet, alLookup, Ne.symm h]
  | cons p t ih =>
      by_cases hp : p.1 = k
      · subst hp
        simp [alSet, alLookup, Ne.symm h]
      · by_cases hk : p.1 = k' <;> simp [alSet, alLookup, hp, hk, ih, h]

/-- `upsertSummary` leaves the (pruned view of) every other key alone. -/
theorem alLookup_pruneSummaries_alSet_ne (now : Nat) (m : SummaryMap)
    (key k : Str) (v : SummaryRec) (h : k ≠ key) :
    alLookup (pruneSummaries now (alSet m key v)) k
      = alLookup (pruneSummaries now m) k := by
  induction m with
  | nil => simp [alSet, pruneSummaries, alLookup, List.filter]
           split <;> simp [alLookup, Ne.symm h]
  | cons p t ih =>
      by_cases hp : p.1 = key
      · subst hp
        simp only [alSet, if_pos rfl, pruneSummaries, List.filter]
        split <;> split <;> simp_all [alLookup, Ne.symm h]
      · simp only [alSet, if_neg hp, pruneSummaries, List.filter]
        split <;> simp_all [alLookup, pruneSummaries]

/-! ### Claim C1: no cross-identity leakage on completion -/

/-- C1: For a non-summarize run (reply, rewrite, tasks) whose captured run
identity differs from the identity active at completion, completion leaves
the visible result slots unchanged, persists the generated html/text into
the Workspace record keyed by the run identity, and touches no other
workspace entry (beyond lazy retention pruning), no summary and no history
entry — AI output of identity A is never written into the slot or pane of a
different active identity B. -/
theorem C1_no_cross_identity_leak
    (action : Action) (runKey runCid : Str) (san strip : Str → Str)
    (r : GenRes) (now : Nat) (s : UiState) (st : Store)
    (hact : action ≠ Action.summarize) (hkey : runKey ≠ s.emailKey) :
    let out := runComplete action runKey runCid san strip (Except.ok r) now s st
    out.ui.resultSlots = s.resultSlots ∧
    out.ui.activeOption = s.activeOption ∧
    (∃ w : WsRec,
      alLookup out.store.workspaces runKey = some w ∧
      w.key = runKey ∧ w.htmlOut = optOf (san r.html) ∧
      w.textOut = optOf (if jsTrim r.text ≠ [] then jsTrim r.text else strip (san r.html))) ∧
    (∀ k, k ≠ runKey →
      alLookup out.store.workspaces k = alLookup (pruneWorkspaces now st.workspaces) k) ∧
    out.store.summaries = st.summaries ∧
    out.store.history = st.history := by
  intro out
  unfold out
  simp only [runComplete]
  rw [if_neg hact, if_pos hkey]
  refine ⟨rfl, rfl, ⟨_, alLookup_alSet_self _ _ _, rfl, rfl, rfl⟩, ?_, rfl, rfl⟩
  intro k hk
  exact alLookup_alSet_ne _ _ _ _ hk

theorem C1_witness :
    Action.reply ≠ Action.summarize ∧ str "a" ≠ (({ emailKey := str "b" } : UiState)).emailKey ∧
    (runComplete Action.reply (str "a") (str "c") id id
        (Except.ok { html := str "h", text := str "t" }) 7 { emailKey := str "b" } {}).ui.resultSlots
      = (({ emailKey := str "b" } : UiState)).resultSlots :=
  ⟨by decide, by decide,
   (C1_no_cross_identity_leak Action.reply (str "a") (str "c") id id
      { html := str "h", text := str "t" } 7 { emailKey := str "b" } {}
      (by decide) (by decide)).1⟩

/-! ### Claim C4: summarize writes only the Summaries namespace -/

/-- C4: A completed summarize run never writes the visible result slots
(neither at start nor at completion); its text goes only into the Summaries
namespace under the run identity, other summary keys are left alone (beyond
lazy retention pruning), and after a successful upsert the
`icc-summary-updated` event carrying that identity is broadcast. -/
theorem C4_summarize_only_summaries
    (runKey runCid : Str) (san strip : Str → Str) (r : GenRes)
    (now now0 : Nat) (s s0 : UiState) (st : Store) :
    let out := runComplete Action.summarize runKey runCid san strip (Except.ok r) now s st
    (runStart Action.summarize now0 s0).resultSlots = s0.resultSlots ∧
    out.ui.resultSlots = s.resultSlots ∧
    out.ui.resultViewHtml = s.resultViewHtml ∧
    out.store.workspaces = st.workspaces ∧
    out.store.history = st.history ∧
    (runKey ≠ [] ∧ (if jsTrim r.text ≠ [] then jsTrim r.text else strip (san r.html)) ≠ [] →
      out.store.summaries
        = (upsertSummary now runKey
            (if jsTrim r.text ≠ [] then jsTrim r.text else strip (san r.html)) runCid
            st.summaries).1 ∧
      (∀ k, k ≠ runKey →
        alLookup out.store.summaries k = alLookup (pruneSummaries now st.summaries) k) ∧
      out.event = some { emailKey := runKey, conversationId := runCid }) ∧
    (¬(runKey ≠ [] ∧ (if jsTrim r.text ≠ [] then jsTrim r.text else strip (san r.html)) ≠ []) →
      out.store.summaries = st.summaries ∧ out.event = none) := by
  intro out
  unfold out
  have hstart : (runStart Action.summarize now0 s0).resultSlots = s0.resultSlots := by
    simp [runStart]
  simp only [runComplete, if_true]
  by_cases h : runKey ≠ [] ∧ (if jsTrim r.text ≠ [] then jsTrim r.text else strip (san r.html)) ≠ []
  · rw [if_pos h]
    refine ⟨hstart, rfl, rfl, rfl, rfl, fun _ => ⟨rfl, ?_, rfl⟩, fun hc => absurd h hc⟩
    intro k hk
    exact alLookup_pruneSummaries_alSet_ne now st.summaries runKey k _ hk
  · rw [if_neg h]
    exact ⟨hstart, rfl, rfl, rfl, rfl, fun hc => absurd hc h, fun _ => ⟨rfl, rfl⟩⟩

theorem C4_witness :
    (runComplete Action.summarize (str "a") (str "c") id id
        (Except.ok { html := [], text := str "sum" }) 7 { emailKey := str "a" } {}).ui.resultSlots
      = (({ emailKey := str "a" } : UiState)).resultSlots ∧
    (runComplete Action.summarize (str "a") (str "c") id id
        (Except.ok { html := [], text := str "sum" }) 7 { emailKey := str "a" } {}).event
      = some { emailKey := str "a", conversationId := str "c" } := by
  have h := C4_summarize_only_summaries (str "a") (str "c") id id
    { html := [], text := str "sum" } 7 3 { emailKey := str "a" } {} {}
  exact ⟨h.2.1, (h.2.2.2.2.2.1 (by decide)).2.2⟩

/-! ### Claim C6: state after a failed generation call -/

/-- C6 as written is false: on failure the busy flag is cleared and the
error is surfaced with all storage untouched, but for a non-summarize
action the visible result slots were already cleared at run start and are
not restored, so the displayed result slots are not "exactly what they were
before the run started".  Counterexample: a reply run failing over a state
whose active slot held html "x" ends with an empty active slot. -/
theorem C6_counterexample :
    (runComplete Action.reply (str "k") (str "c") id id (Except.error (str "boom")) 5
        (runStart Action.reply 5
          { emailKey := str "k",
            resultSlots := [{ html := str "x", text := [], ts := 1 }, {}, {}] })
        {}).ui.resultSlots
      ≠ [{ html := str "x", text := [], ts := 1 }, {}, {}] := by
  decide

/-- C6 amended: when the generation call fails, the error message is
surfaced, the busy flag is cleared, storage (summaries, workspaces,
history) is exactly as before and no event is broadcast; the result slots
are exactly as before for a summarize run, while for non-summarize actions
they keep the cleared value written at run start. -/
theorem C6_failure_amended (action : Action) (runKey runCid e : Str)
    (san strip : Str → Str) (now : Nat) (s : UiState) (st : Store) :
    let out := runComplete action runKey runCid san strip (Except.error e) now
                 (runStart action now s) st
    out.ui.err = e ∧ out.ui.busy = false ∧ out.store = st ∧ out.event = none ∧
    (action = Action.summarize → out.ui.resultSlots = s.resultSlots) ∧
    (action ≠ Action.summarize →
      out.ui.resultSlots
        = setSlotText now s.activeOption (setSlotHtml now s.activeOption s.resultSlots []) []) := by
  by_cases h : action = Action.summarize
  · subst h
    simp [runComplete, runStart]
  · simp [runComplete, runStart, h]

/-! ### Character-class lemmas for the normalization pipeline -/

theorem charOfNat_toNat (n : Nat) (h : n < 55296) : (Char.ofNat n).toNat = n := by
  simp [Char.ofNat, Nat.isValidChar, h, Char.ofNatAux, Char.toNat, UInt32.toNat,
    BitVec.toNat_ofNatLt]

theorem char_eq_iff_toNat (c d : Char) : c = d ↔ c.toNat = d.toNat := by
  constructor
  · rintro rfl; rfl
  · intro h
    have h1 := Char.ofNat_toNat c
    have h2 := Char.ofNat_toNat d
    rw [← h1, ← h2, h]

theorem char_le_iff (c d : Char) : c ≤ d ↔ c.toNat ≤ d.toNat := Iff.rfl

theorem toLowerChar_toNat (c : Char) :
    (toLowerChar c).toNat
      = if 65 ≤ c.toNat ∧ c.toNat ≤ 90 then c.toNat + 32 else c.toNat := by
  unfold toLowerChar
  have hA : ('A').toNat = 65 := rfl
  have hZ : ('Z').toNat = 90 := rfl
  by_cases h : 'A' ≤ c ∧ c ≤ 'Z'
  · have h1 : 65 ≤ c.toNat := by rw [← hA]; exact (char_le_iff _ _).mp h.1
    have h2 : c.toNat ≤ 90 := by rw [← hZ]; exact (char_le_iff _ _).mp h.2
    rw [if_pos h, if_pos ⟨h1, h2⟩, charOfNat_toNat _ (by omega)]
  · have hn : ¬(65 ≤ c.toNat ∧ c.toNat ≤ 90) := by
      intro hx
      exact h ⟨(char_le_iff 'A' c).mpr (by rw [hA]; exact hx.1),
               (char_le_iff c 'Z').mpr (by rw [hZ]; exact hx.2)⟩
    rw [if_neg h, if_neg hn]

theorem isJsWs_toLowerChar (c : Char) : isJsWs (toLowerChar c) = isJsWs c := by
  unfold isJsWs
  rw [Bool.eq_iff_iff]
  simp only [Bool.or_eq_true, decide_eq_true_eq, char_eq_iff_toNat, toLowerChar_toNat]
  have h32 : (' ').toNat = 32 := rfl
  have h9 : ('\t').toNat = 9 := rfl
  have h10 : ('\n').toNat = 10 := rfl
  have h13 : ('\r').toNat = 13 := rfl
  have h11 : ('\x0b').toNat = 11 := rfl
  have h12 : ('\x0c').toNat = 12 := rfl
  rw [h32, h9, h10, h13, h11, h12]
  by_cases h : 65 ≤ c.toNat ∧ c.toNat ≤ 90
  · rw [if_pos h]; omega
  · rw [if_neg h]

theorem toLowerChar_idem (c : Char) : toLowerChar (toLowerChar c) = toLowerChar c := by
  rw [char_eq_iff_toNat, toLowerChar_toNat (toLowerChar c), toLowerChar_toNat c]
  by_cases h : 65 ≤ c.toNat ∧ c.toNat ≤ 90
  · rw [if_pos h, if_neg (by omega)]
  · rw [if_neg h, if_neg h]

theorem toLowerStr_idem (s : Str) : toLowerStr (toLowerStr s) = toLowerStr s := by
  unfold toLowerStr
  rw [List.map_map]
  have h : toLowerChar ∘ toLowerChar = toLowerChar := funext toLowerChar_idem
  rw [h]

theorem dropWhile_idem (p : Char → Bool) (l : Str) :
    (l.dropWhile p).dropWhile p = l.dropWhile p := by
  induction l with
  | nil => rfl
  | cons c t ih =>
      by_cases h : p c
      · simp [List.dropWhile_cons, h, ih]
      · simp [List.dropWhile_cons, h]

theorem head_dropWhile_not (p : Char → Bool) (l : Str) :
    ∀ c, (l.dropWhile p).head? = some c → p c = false := by
  induction l with
  | nil => intro c h; cases h
  | cons a t ih =>
      intro c h
      by_cases ha : p a
      · exact ih c (by simpa [List.dropWhile_cons, ha] using h)
      · simp [List.dropWhile_cons, ha] at h
        rw [← h]
        simpa using ha

theorem dropWhile_of_head_not (p : Char → Bool) (l : Str)
    (h : ∀ c, l.head? = some c → p c = false) : l.dropWhile p = l := by
  cases l with
  | nil => rfl
  | cons a t => simp [List.dropWhile_cons, h a rfl]

theorem dropTrailing_idem (p : Char → Bool) (x : Str) :
    dropTrailing p (dropTrailing p x) = dropTrailing p x := by
  unfold dropTrailing
  rw [List.reverse_reverse, dropWhile_idem]

theorem dropTrailing_append (p : Char → Bool) (l : Str) :
    ∃ u, l = dropTrailing p l ++ u := by
  refine ⟨(l.reverse.takeWhile p).reverse, ?_⟩
  unfold dropTrailing
  rw [← List.reverse_append, List.takeWhile_append_dropWhile, List.reverse_reverse]

theorem jsTrim_idem (s : Str) : jsTrim (jsTrim s) = jsTrim s := by
  unfold jsTrim
  obtain ⟨u, hu⟩ := dropTrailing_append isJsWs (s.dropWhile isJsWs)
  have hhd : ∀ c, (dropTrailing isJsWs (s.dropWhile isJsWs)).head? = some c → isJsWs c = false := by
    intro c hc
    apply head_dropWhile_not isJsWs s
    cases hd : dropTrailing isJsWs (s.dropWhile isJsWs) with
    | nil => rw [hd] at hc; cases hc
    | cons a t =>
        rw [hd] at hc hu
        rw [hu]
        cases hc
        rfl
  rw [dropWhile_of_head_not _ _ hhd, dropTrailing_idem]

theorem dropWhile_toLower (l : Str) :
    (toLowerStr l).dropWhile isJsWs = toLowerStr (l.dropWhile isJsWs) := by
  induction l with
  | nil => rfl
  | cons c t ih =>
      by_cases h : isJsWs c
      · simp [toLowerStr, List.dropWhile_cons, isJsWs_toLowerChar, h] at ih ⊢
        exact ih
      · simp [toLowerStr, List.dropWhile_cons, isJsWs_toLowerChar, h]

theorem jsTrim_toLower (s : Str) : jsTrim (toLowerStr s) = toLowerStr (jsTrim s) := by
  unfold jsTrim dropTrailing
  rw [dropWhile_toLower]
  have hrev : ∀ m : Str, (toLowerStr m).reverse = toLowerStr m.reverse := by
    intro m; unfold toLowerStr; rw [List.map_reverse]
  rw [hrev, dropWhile_toLower, ← hrev]

theorem normTL_idem (s : Str) : normTL (normTL s) = normTL s := by
  unfold normTL
  rw [jsTrim_toLower, toLowerStr_idem, jsTrim_idem]

theorem normTL_normalizeEmailCandidate (raw : Str) :
    normTL (normalizeEmailCandidate raw) = normalizeEmailCandidate raw := by
  simp only [normalizeEmailCandidate]
  split
  · exact normTL_idem _
  · rfl

/-! ### updateFirst / dedup lemmas -/

theorem map_updateFirst_cancel {α β : Type} (g : α → β) (p : α → Bool) (f : α → α)
    (h : ∀ x, g (f x) = g x) : ∀ l : List α, (updateFirst p f l).map g = l.map g := by
  intro l
  induction l with
  | nil => rfl
  | cons x t ih =>
      by_cases hx : p x
      · simp [updateFirst, hx, h]
      · simp [updateFirst, hx, ih]

theorem any_updateFirst {α : Type} (q p : α → Bool) (f : α → α)
    (h : ∀ x, q (f x) = q x) : ∀ l : List α, (updateFirst p f l).any q = l.any q := by
  intro l
  induction l with
  | nil => rfl
  | cons x t ih =>
      by_cases hx : p x
      · simp [updateFirst, hx, h]
      · simp [updateFirst, hx, ih]

theorem mem_updateFirst {α : Type} {p : α → Bool} {f : α → α} {r : α} :
    ∀ {l : List α}, r ∈ updateFirst p f l →
      (∃ x ∈ l, p x = true ∧ r = f x) ∨ r ∈ l := by
  intro l
  induction l with
  | nil => intro h; cases h
  | cons x t ih =>
      intro h
      by_cases hx : p x
      · rw [updateFirst, if_pos hx] at h
        rcases List.mem_cons.mp h with h1 | h2
        · exact Or.inl ⟨x, List.mem_cons_self x t, hx, h1⟩
        · exact Or.inr (List.mem_cons_of_mem x h2)
      · rw [updateFirst, if_neg hx] at h
        rcases List.mem_cons.mp h with h1 | h2
        · exact Or.inr (h1 ▸ List.mem_cons_self x t)
        · rcases ih h2 with ⟨y, hy, hpy, hr⟩ | hmem
          · exact Or.inl ⟨y, List.mem_cons_of_mem x hy, hpy, hr⟩
          · exact Or.inr (List.mem_cons_of_mem x hmem)

theorem updateFirst_hit {α : Type} (p : α → Bool) (f : α → α) :
    ∀ l : List α, l.any p = true →
      ∃ x ∈ l, p x = true ∧ f x ∈ updateFirst p f l := by
  intro l
  induction l with
  | nil => intro h; cases h
  | cons x t ih =>
      intro h
      by_cases hx : p x
      · exact ⟨x, List.mem_cons_self x t, hx, by rw [updateFirst, if_pos hx]; exact List.mem_cons_self _ _⟩
      · have ht : t.any p = true := by simpa [hx] using h
        rcases ih ht with ⟨y, hy, hpy, hmem⟩
        exact ⟨y, List.mem_cons_of_mem x hy, hpy, by rw [updateFirst, if_neg hx]; exact List.mem_cons_of_mem x hmem⟩

theorem mem_dedupKeepFirst {α : Type} [DecidableEq α] {x : α} :
    ∀ {l : List α}, x ∈ dedupKeepFirst l ↔ x ∈ l := by
  intro l
  induction l with
  | nil => simp [dedupKeepFirst]
  | cons a t ih =>
      constructor
      · intro h
        rcases List.mem_cons.mp h with h1 | h2
        · exact h1 ▸ List.mem_cons_self a t
        · exact List.mem_cons_of_mem a (ih.mp (List.mem_of_mem_filter h2))
      · intro h
        rcases List.mem_cons.mp h with h1 | h2
        · exact h1 ▸ List.mem_cons_self a _
        · by_cases hx : x = a
          · exact hx ▸ List.mem_cons_self a _
          · exact List.mem_cons_of_mem a (List.mem_filter.mpr ⟨ih.mpr h2, by simp [hx]⟩)

theorem subset_mergeOrigins_left (a b : List Origin) : a ⊆ mergeOrigins a b := by
  intro x hx
  exact mem_dedupKeepFirst.mpr (List.mem_append_left b hx)

/-! ### Claim C3: retention windows -/

theorem alLookup_none_of_not_mem {α : Type} :
    ∀ (m : List (Str × α)) (k : Str), k ∉ m.map Prod.fst → alLookup m k = none := by
  intro m
  induction m with
  | nil => intro k _; rfl
  | cons q t ih =>
      intro k h
      rw [List.map_cons] at h
      rw [alLookup, if_neg ?hne]
      case hne =>
        intro hq
        exact h (List.mem_cons.mpr (Or.inl hq.symm))
      exact ih k fun hm => h (List.mem_cons_of_mem _ hm)

theorem alLookup_filter_keep {α : Type} (p : α → Bool) (m : List (Str × α)) (k : Str)
    (v : α) (hv : p v = true) :
    alLookup ((alSet m k v).filter fun q => p q.2) k = some v := by
  induction m with
  | nil => simp [alSet, List.filter_cons, hv, alLookup]
  | cons q t ih =>
      by_cases hq : q.1 = k
      · simp [alSet, hq, List.filter_cons, hv, alLookup]
      · simp only [alSet, if_neg hq, List.filter_cons]
        split
        · rw [alLookup, if_neg hq]
          exact ih
        · exact ih

theorem pruneWorkspaces_keys (now : Nat) (m : WsMap) :
    (pruneWorkspaces now m).map Prod.fst
      = (m.filter fun q =>
          decide (¬(q.2.updatedAt = 0 ∨ now - q.2.updatedAt > RETENTION_MS))).map Prod.fst := by
  unfold pruneWorkspaces
  rw [List.map_map]
  rfl

theorem pruneWorkspaces_keys_nodup (now : Nat) (m : WsMap)
    (h : (m.map Prod.fst).Nodup) : ((pruneWorkspaces now m).map Prod.fst).Nodup := by
  rw [pruneWorkspaces_keys]
  exact ((List.filter_sublist m).map Prod.fst).nodup h

theorem ws_prune_alSet_keep (now : Nat) (M : WsMap) (k : Str) (w : WsRec)
    (hw : ¬(w.updatedAt = 0 ∨ now - w.updatedAt > RETENTION_MS)) :
    alLookup (pruneWorkspaces now (alSet M k w)) k = some { w with key := k } := by
  unfold pruneWorkspaces
  induction M with
  | nil =>
      simp only [alSet, List.filter_cons, decide_eq_true_eq]
      rw [if_pos hw, List.map_cons, alLookup, if_pos rfl]
  | cons q t ih =>
      by_cases hq : q.1 = k
      · simp only [alSet, if_pos hq, List.filter_cons, decide_eq_true_eq]
        rw [if_pos hw, List.map_cons, alLookup, if_pos rfl]
      · simp only [alSet, if_neg hq, List.filter_cons, decide_eq_true_eq]
        split
        · rw [List.map_cons, alLookup, if_neg hq]
          exact ih
        · exact ih

theorem ws_prune_alSet_drop (now : Nat) (M : WsMap) (k : Str) (w : WsRec)
    (hnd : (M.map Prod.fst).Nodup)
    (hw : w.updatedAt = 0 ∨ now - w.updatedAt > RETENTION_MS) :
    alLookup (pruneWorkspaces now (alSet M k w)) k = none := by
  induction M with
  | nil =>
      unfold pruneWorkspaces
      simp only [alSet, List.filter_cons, decide_eq_true_eq]
      rw [if_neg (not_not_intro hw)]
      rfl
  | cons q t ih =>
      by_cases hq : q.1 = k
      · have hk : k ∉ t.map Prod.fst := by
          rw [List.map_cons, hq] at hnd
          exact (List.nodup_cons.mp hnd).1
        unfold pruneWorkspaces
        simp only [alSet, if_pos hq, List.filter_cons, decide_eq_true_eq]
        rw [if_neg (not_not_intro hw)]
        apply alLookup_none_of_not_mem
        intro hmem
        apply hk
        have hmem2 := (pruneWorkspaces_keys now t) ▸ hmem
        exact ((List.filter_sublist t).map Prod.fst).subset hmem2
      · have hnd' : (t.map Prod.fst).Nodup := (List.nodup_cons.mp (List.map_cons _ _ _ ▸ hnd)).2
        unfold pruneWorkspaces at ih ⊢
        simp only [alSet, if_neg hq, List.filter_cons, decide_eq_true_eq]
        split
        · rw [List.map_cons, alLookup, if_neg hq]
          exact ih hnd'
        · exact ih hnd'

theorem mem_pruneHistory {now : Nat} {l : List HistEntry} {x : HistEntry} :
    x ∈ pruneHistory now l ↔ x ∈ l ∧ now - x.ts ≤ RETENTION_MS := by
  simp [pruneHistory, List.mem_filter]

theorem sum_prune_alSet_keep (now : Nat) (m : SummaryMap) (k : Str) (v : SummaryRec)
    (hv : ¬(v.ts = 0 ∨ now - v.ts > RETENTION_MS)) :
    alLookup (pruneSummaries now (alSet m k v)) k = some v := by
  unfold pruneSummaries
  induction m with
  | nil =>
      simp only [alSet, List.filter_cons, decide_eq_true_eq]
      rw [if_pos hv, alLookup, if_pos rfl]
  | cons q t ih =>
      by_cases hq : q.1 = k
      · simp only [alSet, if_pos hq, List.filter_cons, decide_eq_true_eq]
        rw [if_pos hv, alLookup, if_pos rfl]
      · simp only [alSet, if_neg hq, List.filter_cons, decide_eq_true_eq]
        split
        · rw [alLookup, if_neg hq]
          exact ih
        · exact ih

theorem mem_drop_append_last {α : Type} (u : List α) (x : α) (n : Nat)
    (hn : n ≤ u.length) : x ∈ (u ++ [x]).drop n := by
  rw [List.drop_append_of_le_length hn]
  exact List.mem_append_right _ (List.mem_singleton_self x)

/-- C3 counterexample: AiPanel's summary read (`loadSummary`) skips an
expired record but performs no write, so the expired record remains stored
after the read — the namespace is not pruned "whenever it is read". -/
theorem C3_counterexample :
    loadSummary (1 + RETENTION_MS + 1)
        [(str "k", { ts := 1, text := str "old" })] (str "k") = [] ∧
    summariesAfterLoad [(str "k", { ts := 1, text := str "old" })]
      = [(str "k", { ts := 1, text := str "old" })] ∧
    alLookup (summariesAfterLoad [(str "k", { ts := 1, text := str "old" })]) (str "k")
      = some { ts := 1, text := str "old" } :=
  ⟨by decide, rfl, by decide⟩

/-- C3 amended: across the three namespaces a record written at time T is
returned by a read at `T + RETENTION_MS - 1` and not at
`T + RETENTION_MS + 1`; expired records are removed lazily — on read for
the workspaces and history namespaces, and on write for summaries (the
AiPanel summary read only skips them, see the counterexample) — never by a
background timer (the model has none). -/
theorem C3_retention_amended (T : Nat) (hT : T ≠ 0)
    (k text cid : Str) (m : SummaryMap) (w : WsRec) (wm : WsMap)
    (hw : w.updatedAt = T) (hnd : (wm.map Prod.fst).Nodup)
    (l : List HistEntry) (entry : HistEntry) (hent : entry.ts = T) :
    loadSummary (T + RETENTION_MS - 1) (upsertSummary T k text cid m).1 k = text ∧
    loadSummary (T + RETENTION_MS + 1) (upsertSummary T k text cid m).1 k = [] ∧
    (∀ p ∈ (upsertSummary T k text cid m).1, ¬(p.2.ts = 0 ∨ T - p.2.ts > RETENTION_MS)) ∧
    loadWorkspace (T + RETENTION_MS - 1) w.key (saveWorkspace T w wm) = w ∧
    loadWorkspace (T + RETENTION_MS + 1) w.key (saveWorkspace T w wm)
      = { key := w.key, ts := T + RETENTION_MS + 1, updatedAt := T + RETENTION_MS + 1 } ∧
    (∀ now : Nat, ∀ p ∈ loadWorkspaces now wm,
      ¬(p.2.updatedAt = 0 ∨ now - p.2.updatedAt > RETENTION_MS)) ∧
    entry ∈ loadAiHistory (T + RETENTION_MS - 1) (saveAiHistory T (l ++ [entry])) ∧
    entry ∉ loadAiHistory (T + RETENTION_MS + 1) (saveAiHistory T (l ++ [entry])) ∧
    (∀ now : Nat, ∀ x ∈ loadAiHistory now l, now - x.ts ≤ RETENTION_MS) := by
  have hvalid : ¬(T = 0 ∨ T - T > RETENTION_MS) := by
    intro hc
    rcases hc with hc | hc
    · exact hT hc
    · omega
  have hlook : alLookup (upsertSummary T k text cid m).1 k
      = some { ts := T, text := text, conversationId := cid } :=
    sum_prune_alSet_keep T m k _ hvalid
  refine ⟨?_, ?_, ?_, ?_, ?_, ?_, ?_, ?_, ?_⟩
  · rw [loadSummary, hlook]
    dsimp only
    rw [if_neg (by omega)]
  · rw [loadSummary, hlook]
    dsimp only
    rw [if_pos (by omega)]
  · intro p hp
    have hf := List.mem_filter.mp hp
    exact of_decide_eq_true hf.2
  · rw [loadWorkspace, saveWorkspace, ws_prune_alSet_keep _ _ _ _
      (by rw [hw]; intro hc; rcases hc with hc | hc <;> omega)]
  · rw [loadWorkspace, saveWorkspace, ws_prune_alSet_drop _ _ _ _
      (pruneWorkspaces_keys_nodup T wm hnd) (Or.inr (by rw [hw]; omega))]
  · intro now p hp
    rcases List.mem_map.mp hp with ⟨q, hq, rfl⟩
    have hf := List.mem_filter.mp hq
    exact of_decide_eq_true hf.2
  · have hP : pruneHistory T (l ++ [entry]) = pruneHistory T l ++ [entry] := by
      unfold pruneHistory
      rw [List.filter_append]
      congr 1
      simp [hent]
    have hmem : entry ∈ saveAiHistory T (l ++ [entry]) := by
      simp only [saveAiHistory, hP]
      apply mem_drop_append_last
      simp only [List.length_append, List.length_singleton]
      omega
    exact mem_pruneHistory.mpr ⟨hmem, by omega⟩
  · intro hc
    have hts := (mem_pruneHistory.mp hc).2
    omega
  · intro now x hx
    exact (mem_pruneHistory.mp hx).2

theorem C3_witness :
    (7 : Nat) ≠ 0 ∧
    loadSummary (7 + RETENTION_MS - 1)
      (upsertSummary 7 (str "k") (str "s") (str "c") []).1 (str "k") = str "s" ∧
    loadSummary (7 + RETENTION_MS + 1)
      (upsertSummary 7 (str "k") (str "s") (str "c") []).1 (str "k") = [] := by
  have h := C3_retention_amended 7 (by decide) (str "k") (str "s") (str "c") []
    { key := str "w", ts := 7, updatedAt := 7 } [] rfl (by decide) []
    { id := str "i", ts := 7, emailKey := str "k", conversationId := str "c" } rfl
  exact ⟨by decide, h.1, h.2.1⟩

/-! ### Claim C7: preset idempotence -/

theorem applyPreset_reply_def (rows : List RecipientRow) (ctx : OutlookMessageContext)
    (my : Str) :
    applyPreset rows Preset.reply ctx my
      = (if normalizeEmailCandidate ctx.fromEmail ≠ []
            ∧ (my = [] ∨ normalizeEmailCandidate ctx.fromEmail ≠ my) then
           if (rows.map clearRow).any
               (fun r => decide (r.email = normalizeEmailCandidate ctx.fromEmail)) then
             updateFirst (fun r => decide (r.email = normalizeEmailCandidate ctx.fromEmail))
               (fun r => { r with incl := true, role := Role.to }) (rows.map clearRow)
           else
             { email := normalizeEmailCandidate ctx.fromEmail, name := ctx.fromName,
               origins := [Origin.fromSender], incl := true, role := Role.to } :: rows.map clearRow
         else rows.map clearRow) := by
  simp [applyPreset]

theorem map_clear_clear (l : List RecipientRow) :
    (l.map clearRow).map clearRow = l.map clearRow := by
  rw [List.map_map]
  have h : clearRow ∘ clearRow = clearRow := funext fun r => rfl
  rw [h]

theorem map_clear_updateFirst (p : RecipientRow → Bool) (l : List RecipientRow) :
    (updateFirst p (fun r => { r with incl := true, role := Role.to }) l).map clearRow
      = l.map clearRow :=
  map_updateFirst_cancel clearRow p
    (fun r => { r with incl := true, role := Role.to }) (fun _ => rfl) l

theorem applyPreset_reply_idem (rows : List RecipientRow) (ctx : OutlookMessageContext)
    (my : Str) :
    applyPreset (applyPreset rows Preset.reply ctx my) Preset.reply ctx my
      = applyPreset rows Preset.reply ctx my := by
  by_cases hc : normalizeEmailCandidate ctx.fromEmail ≠ []
      ∧ (my = [] ∨ normalizeEmailCandidate ctx.fromEmail ≠ my)
  · by_cases he : (rows.map clearRow).any
        (fun r => decide (r.email = normalizeEmailCandidate ctx.fromEmail)) = true
    · have h1 : applyPreset rows Preset.reply ctx my
          = updateFirst (fun r => decide (r.email = normalizeEmailCandidate ctx.fromEmail))
              (fun r => { r with incl := true, role := Role.to }) (rows.map clearRow) := by
        rw [applyPreset_reply_def, if_pos hc, if_pos he]
      rw [h1, applyPreset_reply_def, if_pos hc, map_clear_updateFirst, map_clear_clear,
        if_pos he]
    · have h1 : applyPreset rows Preset.reply ctx my
          = { email := normalizeEmailCandidate ctx.fromEmail, name := ctx.fromName,
              origins := [Origin.fromSender], incl := true, role := Role.to }
            :: rows.map clearRow := by
        rw [applyPreset_reply_def, if_pos hc, if_neg he]
      rw [h1, applyPreset_reply_def, if_pos hc, List.map_cons, map_clear_clear,
        if_pos (by simp [clearRow]), updateFirst, if_pos (by simp [clearRow])]
      rfl
  · have h1 : applyPreset rows Preset.reply ctx my = rows.map clearRow := by
      rw [applyPreset_reply_def, if_neg hc]
    rw [h1, applyPreset_reply_def, if_neg hc, map_clear_clear]

theorem applyPreset_reply_spec (rows : List RecipientRow) (ctx : OutlookMessageContext)
    (my : Str)
    (hc : normalizeEmailCandidate ctx.fromEmail ≠ []
      ∧ (my = [] ∨ normalizeEmailCandidate ctx.fromEmail ≠ my)) :
    (∀ r ∈ applyPreset rows Preset.reply ctx my,
        r.email ≠ normalizeEmailCandidate ctx.fromEmail → r.incl = false) ∧
    (∃ r ∈ applyPreset rows Preset.reply ctx my,
        r.email = normalizeEmailCandidate ctx.fromEmail ∧ r.incl = true ∧ r.role = Role.to) := by
  rw [applyPreset_reply_def, if_pos hc]
  by_cases he : (rows.map clearRow).any
      (fun r => decide (r.email = normalizeEmailCandidate ctx.fromEmail)) = true
  · rw [if_pos he]
    constructor
    · intro r hr hne
      rcases mem_updateFirst hr with ⟨x, _, hpx, rfl⟩ | hmem
      · exact absurd (by simpa using hpx) (by simpa using hne)
      · rcases List.mem_map.mp hmem with ⟨y, _, rfl⟩
        rfl
    · rcases updateFirst_hit _ _ _ he with ⟨x, _, hpx, hmem⟩
      exact ⟨_, hmem, by simpa using hpx, rfl, rfl⟩
  · rw [if_neg he]
    constructor
    · intro r hr hne
      rcases List.mem_cons.mp hr with rfl | hmem
      · dsimp only at hne
        exact absurd rfl hne
      · rcases List.mem_map.mp hmem with ⟨y, _, rfl⟩
        rfl
    · refine ⟨{ email := normalizeEmailCandidate ctx.fromEmail, name := ctx.fromName,
                origins := [Origin.fromSender], incl := true, role := Role.to },
              List.mem_cons_self _ _, ?_, rfl, rfl⟩
      dsimp only

/-- C7: `applyPreset` with `reply` is idempotent, and `replyAll` followed by
`reply` leaves every non-sender row excluded while the sender's row is
included with role `to` (inserted if absent).  The second part presupposes a
usable sender address: nonempty after normalization and not the local
user's own address. -/
theorem C7_reply_idempotent (rows : List RecipientRow) (ctx : OutlookMessageContext)
    (my : Str) :
    applyPreset (applyPreset rows Preset.reply ctx my) Preset.reply ctx my
      = applyPreset rows Preset.reply ctx my ∧
    (normalizeEmailCandidate ctx.fromEmail ≠ []
        ∧ (my = [] ∨ normalizeEmailCandidate ctx.fromEmail ≠ my) →
      (∀ r ∈ applyPreset (applyPreset rows Preset.replyAll ctx my) Preset.reply ctx my,
          r.email ≠ normalizeEmailCandidate ctx.fromEmail → r.incl = false) ∧
      (∃ r ∈ applyPreset (applyPreset rows Preset.replyAll ctx my) Preset.reply ctx my,
          r.email = normalizeEmailCandidate ctx.fromEmail ∧ r.incl = true ∧ r.role = Role.to)) :=
  ⟨applyPreset_reply_idem rows ctx my,
   fun hc => applyPreset_reply_spec (applyPreset rows Preset.replyAll ctx my) ctx my hc⟩

/-! ### Claim C8: row-set invariants -/

theorem emails_map_preserving (g : RecipientRow → RecipientRow)
    (hg : ∀ r, (g r).email = r.email) (rows : List RecipientRow) :
    (rows.map g).map (fun r => r.email) = rows.map (fun r => r.email) := by
  rw [List.map_map]
  exact List.map_congr_left fun r _ => hg r

theorem RowsInv_map (g : RecipientRow → RecipientRow)
    (hg : ∀ r, (g r).email = r.email) {rows : List RecipientRow}
    (h : RowsInv rows) : RowsInv (rows.map g) := by
  constructor
  · rw [emails_map_preserving g hg]
    exact h.1
  · intro r hr
    rcases List.mem_map.mp hr with ⟨y, hy, rfl⟩
    rw [hg y]
    exact h.2 y hy

theorem originsGrow_map (g : RecipientRow → RecipientRow)
    (hg : ∀ r, (g r).email = r.email) (ho : ∀ r, r.origins ⊆ (g r).origins)
    (rows : List RecipientRow) : originsGrow rows (rows.map g) := by
  intro r hr
  exact ⟨g r, List.mem_map_of_mem g hr, hg r, ho r⟩

theorem RowsInv_updateFirst (p : RecipientRow → Bool) (f : RecipientRow → RecipientRow)
    (hf : ∀ r, (f r).email = r.email) {rows : List RecipientRow}
    (h : RowsInv rows) : RowsInv (updateFirst p f rows) := by
  constructor
  · rw [map_updateFirst_cancel (fun r => r.email) p f hf]
    exact h.1
  · intro r hr
    rcases mem_updateFirst hr with ⟨x, hx, _, rfl⟩ | hmem
    · rw [hf x]
      exact h.2 x hx
    · exact h.2 r hmem

theorem originsGrow_updateFirst (p : RecipientRow → Bool) (f : RecipientRow → RecipientRow)
    (hf : ∀ r, (f r).email = r.email) (ho : ∀ r, r.origins ⊆ (f r).origins) :
    ∀ rows : List RecipientRow, originsGrow rows (updateFirst p f rows) := by
  intro rows
  induction rows with
  | nil => intro r hr; cases hr
  | cons x t ih =>
      intro r hr
      by_cases hx : p x
      · rw [updateFirst, if_pos hx]
        rcases List.mem_cons.mp hr with rfl | hmem
        · exact ⟨f r, List.mem_cons_self _ _, hf r, ho r⟩
        · exact ⟨r, List.mem_cons_of_mem _ hmem, rfl, fun a ha => ha⟩
      · rw [updateFirst, if_neg hx]
        rcases List.mem_cons.mp hr with rfl | hmem
        · exact ⟨r, List.mem_cons_self _ _, rfl, fun a ha => ha⟩
        · rcases ih r hmem with ⟨r', hr', he, hsub⟩
          exact ⟨r', List.mem_cons_of_mem _ hr', he, hsub⟩

theorem originsGrow_append (rows l : List RecipientRow) : originsGrow rows (rows ++ l) :=
  fun r hr => ⟨r, List.mem_append_left l hr, rfl, fun a ha => ha⟩

theorem originsGrow_cons (x : RecipientRow) (rows : List RecipientRow) :
    originsGrow rows (x :: rows) :=
  fun r hr => ⟨r, List.mem_cons_of_mem x hr, rfl, fun a ha => ha⟩

theorem originsGrow_refl (rows : List RecipientRow) : originsGrow rows rows :=
  fun r hr => ⟨r, hr, rfl, fun a ha => ha⟩

theorem originsGrow_trans {a b c : List RecipientRow}
    (h1 : originsGrow a b) (h2 : originsGrow b c) : originsGrow a c := by
  intro r hr
  rcases h1 r hr with ⟨r1, hr1, he1, hs1⟩
  rcases h2 r1 hr1 with ⟨r2, hr2, he2, hs2⟩
  exact ⟨r2, hr2, by rw [he2, he1], fun a ha => hs2 (hs1 ha)⟩

theorem not_any_email {rows : List RecipientRow} {e : Str}
    (h : ¬(rows.any fun r => decide (r.email = e)) = true) :
    ∀ r ∈ rows, r.email ≠ e := by
  intro r hr hre
  apply h
  simp only [List.any_eq_true, decide_eq_true_eq]
  exact ⟨r, hr, hre⟩

theorem RowsInv_append_new {rows : List RecipientRow} {newRow : RecipientRow}
    (h : RowsInv rows) (hfix : normTL newRow.email = newRow.email)
    (hnotin : ∀ r ∈ rows, r.email ≠ newRow.email) :
    RowsInv (rows ++ [newRow]) := by
  constructor
  · rw [List.map_append]
    apply List.Nodup.append h.1 (List.nodup_singleton _)
    intro a ha hb
    rcases List.mem_map.mp ha with ⟨y, hy, rfl⟩
    exact hnotin y hy (List.mem_singleton.mp hb)
  · intro r hr
    rcases List.mem_append.mp hr with hmem | hmem
    · exact h.2 r hmem
    · rcases List.mem_singleton.mp hmem with rfl
      exact hfix

theorem RowsInv_cons_new {rows : List RecipientRow} {newRow : RecipientRow}
    (h : RowsInv rows) (hfix : normTL newRow.email = newRow.email)
    (hnotin : ∀ r ∈ rows, r.email ≠ newRow.email) :
    RowsInv (newRow :: rows) := by
  constructor
  · rw [List.map_cons]
    apply List.Nodup.cons
    · intro hmem
      rcases List.mem_map.mp hmem with ⟨y, hy, hey⟩
      exact hnotin y hy hey
    · exact h.1
  · intro r hr
    rcases List.mem_cons.mp hr with rfl | hmem
    · exact hfix
    · exact h.2 r hmem

theorem RowsInv_nil : RowsInv ([] : List RecipientRow) :=
  ⟨List.nodup_nil, fun r hr => absurd hr (List.not_mem_nil r)⟩

theorem pushRow_inv (my : Str) {rows : List RecipientRow} (h : RowsInv rows)
    (email name : Str) (origin : Origin) :
    RowsInv (pushRow my rows email name origin)
      ∧ originsGrow rows (pushRow my rows email name origin) := by
  simp only [pushRow]
  by_cases h1 : normalizeEmailCandidate email = []
  · rw [if_pos h1]
    exact ⟨h, originsGrow_refl rows⟩
  · rw [if_neg h1]
    by_cases h2 : my ≠ [] ∧ normalizeEmailCandidate email = my
    · rw [if_pos h2]
      exact ⟨h, originsGrow_refl rows⟩
    · rw [if_neg h2]
      by_cases h3 : (rows.any fun r => decide (r.email = normalizeEmailCandidate email)) = true
      · rw [if_pos h3]
        constructor
        · refine RowsInv_updateFirst _ _ ?_ h
          exact fun _ => rfl
        · refine originsGrow_updateFirst _ _ ?_ ?_ rows
          · exact fun _ => rfl
          · exact fun r => subset_mergeOrigins_left _ _
      · rw [if_neg h3]
        constructor
        · refine RowsInv_append_new h ?_ ?_ <;> dsimp only
          · exact normTL_normalizeEmailCandidate email
          · exact not_any_email h3
        · exact originsGrow_append rows _

theorem foldl_pushRow_inv (my : Str) (o : Origin) :
    ∀ (l : List Recipient) (rows : List RecipientRow), RowsInv rows →
      RowsInv (l.foldl (fun rs r => pushRow my rs r.email r.name o) rows) := by
  intro l
  induction l with
  | nil => intro rows h; exact h
  | cons x t ih => intro rows h; exact ih _ (pushRow_inv my h x.email x.name o).1

theorem buildHeaderRows_inv (ctx : OutlookMessageContext) (my : Str) :
    RowsInv (buildHeaderRows ctx my) := by
  simp only [buildHeaderRows]
  exact foldl_pushRow_inv my Origin.cc _ _
    (foldl_pushRow_inv my Origin.to _ _
      (pushRow_inv my RowsInv_nil ctx.fromEmail ctx.fromName Origin.fromSender).1)

theorem applyPreset_inv_grow (rows : List RecipientRow) (preset : Preset)
    (ctx : OutlookMessageContext) (my : Str) (h : RowsInv rows) :
    RowsInv (applyPreset rows preset ctx my)
      ∧ originsGrow rows (applyPreset rows preset ctx my) := by
  have hci : RowsInv (rows.map clearRow) := RowsInv_map clearRow (fun _ => rfl) h
  have hcg : originsGrow rows (rows.map clearRow) :=
    originsGrow_map clearRow (fun _ => rfl) (fun _ _ ha => ha) rows
  have hmid : RowsInv (applyPresetMid rows ctx my)
      ∧ originsGrow rows (applyPresetMid rows ctx my) := by
    simp only [applyPresetMid]
    by_cases hc : normalizeEmailCandidate ctx.fromEmail ≠ []
        ∧ (my = [] ∨ normalizeEmailCandidate ctx.fromEmail ≠ my)
    · rw [if_pos hc]
      by_cases he : ((rows.map clearRow).any
          fun r => decide (r.email = normalizeEmailCandidate ctx.fromEmail)) = true
      · rw [if_pos he]
        constructor
        · refine RowsInv_updateFirst _ _ ?_ hci
          exact fun _ => rfl
        · refine originsGrow_trans hcg (originsGrow_updateFirst _ _ ?_ ?_ _)
          · exact fun _ => rfl
          · exact fun _ _ ha => ha
      · rw [if_neg he]
        constructor
        · refine RowsInv_cons_new hci ?_ ?_ <;> dsimp only
          · exact normTL_normalizeEmailCandidate ctx.fromEmail
          · exact not_any_email he
        · exact originsGrow_trans hcg (originsGrow_cons _ _)
    · rw [if_neg hc]
      exact ⟨hci, hcg⟩
  cases preset with
  | custom =>
      have hps : applyPreset rows Preset.custom ctx my = rows.map clearRow := by
        simp [applyPreset]
      rw [hps]
      exact ⟨hci, hcg⟩
  | reply =>
      have hps : applyPreset rows Preset.reply ctx my = applyPresetMid rows ctx my := by
        simp [applyPreset, applyPresetMid]
      rw [hps]
      exact hmid
  | replyAll =>
      have hps : applyPreset rows Preset.replyAll ctx my
          = (applyPresetMid rows ctx my).map fun r =>
              if (my ≠ [] ∧ r.email = my)
                  ∨ (normalizeEmailCandidate ctx.fromEmail ≠ []
                      ∧ r.email = normalizeEmailCandidate ctx.fromEmail) then r
              else if r.origins.any fun o => decide (o = Origin.to ∨ o = Origin.cc) then
                { r with incl := true, role := Role.cc }
              else r := by
        simp [applyPreset, applyPresetMid]
      rw [hps]
      have hge : ∀ r : RecipientRow,
          ((fun r : RecipientRow =>
            if (my ≠ [] ∧ r.email = my)
                ∨ (normalizeEmailCandidate ctx.fromEmail ≠ []
                    ∧ r.email = normalizeEmailCandidate ctx.fromEmail) then r
            else if r.origins.any fun o => decide (o = Origin.to ∨ o = Origin.cc) then
              { r with incl := true, role := Role.cc }
            else r) r).email = r.email := by
        intro r
        dsimp only
        split
        · rfl
        · split <;> rfl
      have hgo : ∀ r : RecipientRow,
          r.origins ⊆ ((fun r : RecipientRow =>
            if (my ≠ [] ∧ r.email = my)
                ∨ (normalizeEmailCandidate ctx.fromEmail ≠ []
                    ∧ r.email = normalizeEmailCandidate ctx.fromEmail) then r
            else if r.origins.any fun o => decide (o = Origin.to ∨ o = Origin.cc) then
              { r with incl := true, role := Role.cc }
            else r) r).origins := by
        intro r
        dsimp only
        split
        · exact fun _ ha => ha
        · split
          · exact fun _ ha => ha
          · exact fun _ ha => ha
      exact ⟨RowsInv_map _ hge hmid.1,
             originsGrow_trans hmid.2 (originsGrow_map _ hge hgo _)⟩

theorem cleanCandidatesAux_fixed : ∀ (l seen : List Str),
    ∀ e ∈ cleanCandidatesAux seen l, normTL e = e := by
  intro l
  induction l with
  | nil => intro seen e he; cases he
  | cons x t ih =>
      intro seen e he
      simp only [cleanCandidatesAux] at he
      by_cases hc : normalizeEmailCandidate x = [] ∨ normalizeEmailCandidate x ∈ seen
      · rw [if_pos hc] at he
        exact ih seen e he
      · rw [if_neg hc] at he
        rcases List.mem_cons.mp he with rfl | hmem
        · exact normTL_normalizeEmailCandidate x
        · exact ih _ e hmem

theorem cleanCandidates_fixed (raws : List Str) :
    ∀ e ∈ cleanCandidates raws, normTL e = e :=
  cleanCandidatesAux_fixed raws []

theorem harvest_inv_grow (my : Str) :
    ∀ found : List Str, (∀ e ∈ found, normTL e = e) →
      ∀ rows : List RecipientRow, RowsInv rows →
        RowsInv (harvestBodyEmails my found rows)
          ∧ originsGrow rows (harvestBodyEmails my found rows) := by
  intro found
  induction found with
  | nil =>
      intro _ rows h
      exact ⟨h, originsGrow_refl rows⟩
  | cons e t ih =>
      intro hf rows h
      simp only [harvestBodyEmails, List.foldl_cons] at *
      have hstep :
          RowsInv (if my ≠ [] ∧ e = my then rows
            else if rows.any fun r => decide (r.email = e) then
              updateFirst (fun r => decide (r.email = e))
                (fun r => { r with origins := mergeOrigins r.origins [Origin.body] }) rows
            else rows ++ [{ email := e, name := [], origins := [Origin.body],
                            incl := false, role := Role.cc }])
          ∧ originsGrow rows (if my ≠ [] ∧ e = my then rows
            else if rows.any fun r => decide (r.email = e) then
              updateFirst (fun r => decide (r.email = e))
                (fun r => { r with origins := mergeOrigins r.origins [Origin.body] }) rows
            else rows ++ [{ email := e, name := [], origins := [Origin.body],
                            incl := false, role := Role.cc }]) := by
        by_cases h1 : my ≠ [] ∧ e = my
        · rw [if_pos h1]
          exact ⟨h, originsGrow_refl rows⟩
        · rw [if_neg h1]
          by_cases h2 : (rows.any fun r => decide (r.email = e)) = true
          · rw [if_pos h2]
            constructor
            · refine RowsInv_updateFirst _ _ ?_ h
              exact fun _ => rfl
            · refine originsGrow_updateFirst _ _ ?_ ?_ rows
              · exact fun _ => rfl
              · exact fun r => subset_mergeOrigins_left _ _
          · rw [if_neg h2]
            constructor
            · refine RowsInv_append_new h ?_ ?_ <;> dsimp only
              · exact hf e (List.mem_cons_self e t)
              · exact not_any_email h2
            · exact originsGrow_append rows _
      have hrest := ih (fun x hx => hf x (List.mem_cons_of_mem e hx)) _ hstep.1
      exact ⟨hrest.1, originsGrow_trans hstep.2 hrest.2⟩

theorem addManual_inv_grow (addEmail : Str) (addRole : Role)
    {rows : List RecipientRow} (h : RowsInv rows) :
    RowsInv (addManualRecipient addEmail addRole rows)
      ∧ originsGrow rows (addManualRecipient addEmail addRole rows) := by
  simp only [addManualRecipient]
  by_cases h1 : normalizeEmailCandidate addEmail = []
  · rw [if_pos h1]
    exact ⟨h, originsGrow_refl rows⟩
  · rw [if_neg h1]
    by_cases h2 : (rows.any fun r => decide (r.email = normalizeEmailCandidate addEmail)) = true
    · rw [if_pos h2]
      constructor
      · refine RowsInv_updateFirst _ _ ?_ h
        exact fun _ => rfl
      · refine originsGrow_updateFirst _ _ ?_ ?_ rows
        · exact fun _ => rfl
        · exact fun r => subset_mergeOrigins_left _ _
    · rw [if_neg h2]
      constructor
      · refine RowsInv_append_new h ?_ ?_ <;> dsimp only
        · exact normTL_normalizeEmailCandidate addEmail
        · exact not_any_email h2
      · exact originsGrow_append rows _

theorem toggleInclude_inv_grow (emailAddr : Str) (checked : Bool)
    {rows : List RecipientRow} (h : RowsInv rows) :
    RowsInv (onToggleInclude emailAddr checked rows)
      ∧ originsGrow rows (onToggleInclude emailAddr checked rows) := by
  have hge : ∀ r : RecipientRow,
      ((fun r : RecipientRow => if r.email = emailAddr then { r with incl := checked } else r) r).email
        = r.email := by
    intro r; dsimp only; split <;> rfl
  have hgo : ∀ r : RecipientRow,
      r.origins ⊆ ((fun r : RecipientRow =>
        if r.email = emailAddr then { r with incl := checked } else r) r).origins := by
    intro r; dsimp only; split <;> exact fun _ ha => ha
  exact ⟨RowsInv_map _ hge h, originsGrow_map _ hge hgo rows⟩

theorem changeRole_inv_grow (emailAddr : Str) (role : Role)
    {rows : List RecipientRow} (h : RowsInv rows) :
    RowsInv (onChangeRole emailAddr role rows)
      ∧ originsGrow rows (onChangeRole emailAddr role rows) := by
  have hge : ∀ r : RecipientRow,
      ((fun r : RecipientRow => if r.email = emailAddr then { r with role := role } else r) r).email
        = r.email := by
    intro r; dsimp only; split <;> rfl
  have hgo : ∀ r : RecipientRow,
      r.origins ⊆ ((fun r : RecipientRow =>
        if r.email = emailAddr then { r with role := role } else r) r).origins := by
    intro r; dsimp only; split <;> exact fun _ ha => ha
  exact ⟨RowsInv_map _ hge h, originsGrow_map _ hge hgo rows⟩

theorem normTL_nodup {rows : List RecipientRow} (h : RowsInv rows) :
    (rows.map fun r => normTL r.email).Nodup := by
  have heq : (rows.map fun r => normTL r.email) = rows.map fun r => r.email :=
    List.map_congr_left fun r hr => h.2 r hr
  rw [heq]
  exact h.1

/-- C8: every row-set operation preserves the invariant "one row per
normalized (trimmed, lower-cased) email address", `buildHeaderRows`
establishes it, and every incremental operation (body-scan harvesting,
manual add, preset application, include/role toggles) only grows each
row's origin set. -/
theorem C8_row_invariants :
    (∀ (ctx : OutlookMessageContext) (my : Str), RowsInv (buildHeaderRows ctx my)) ∧
    (∀ (rows : List RecipientRow) (preset : Preset) (ctx : OutlookMessageContext) (my : Str),
      RowsInv rows →
        RowsInv (applyPreset rows preset ctx my)
          ∧ originsGrow rows (applyPreset rows preset ctx my)) ∧
    (∀ (rows : List RecipientRow) (my : Str) (raws : List Str), RowsInv rows →
      RowsInv (harvestBodyEmails my (cleanCandidates raws) rows)
        ∧ originsGrow rows (harvestBodyEmails my (cleanCandidates raws) rows)) ∧
    (∀ (rows : List RecipientRow) (addEmail : Str) (addRole : Role), RowsInv rows →
      RowsInv (addManualRecipient addEmail addRole rows)
        ∧ originsGrow rows (addManualRecipient addEmail addRole rows)) ∧
    (∀ (rows : List RecipientRow) (emailAddr : Str) (checked : Bool), RowsInv rows →
      RowsInv (onToggleInclude emailAddr checked rows)
        ∧ originsGrow rows (onToggleInclude emailAddr checked rows)) ∧
    (∀ (rows : List RecipientRow) (emailAddr : Str) (role : Role), RowsInv rows →
      RowsInv (onChangeRole emailAddr role rows)
        ∧ originsGrow rows (onChangeRole emailAddr role rows)) ∧
    (∀ rows : List RecipientRow, RowsInv rows →
      (rows.map fun r => normTL r.email).Nodup) :=
  ⟨buildHeaderRows_inv,
   fun rows preset ctx my h => applyPreset_inv_grow rows preset ctx my h,
   fun rows my raws h => harvest_inv_grow my (cleanCandidates raws) (cleanCandidates_fixed raws) rows h,
   fun _ addEmail addRole h => addManual_inv_grow addEmail addRole h,
   fun _ emailAddr checked h => toggleInclude_inv_grow emailAddr checked h,
   fun _ emailAddr role h => changeRole_inv_grow emailAddr role h,
   fun _ h => normTL_nodup h⟩

theorem C8_witness :
    RowsInv ([] : List RecipientRow) ∧
    (RowsInv (addManualRecipient (str "Bob@x.com") Role.bcc [])
      ∧ originsGrow [] (addManualRecipient (str "Bob@x.com") Role.bcc [])) :=
  ⟨RowsInv_nil, C8_row_invariants.2.2.2.1 [] (str "Bob@x.com") Role.bcc RowsInv_nil⟩

set_option maxHeartbeats 1000000 in
theorem C7_witness :
    (normalizeEmailCandidate (str "Ana@x.com") ≠ []
      ∧ (([] : Str) = [] ∨ normalizeEmailCandidate (str "Ana@x.com") ≠ [])) ∧
    (∃ r ∈ applyPreset
        (applyPreset [] Preset.replyAll { fromEmail := str "Ana@x.com" } [])
        Preset.reply { fromEmail := str "Ana@x.com" } [],
      r.email = normalizeEmailCandidate (str "Ana@x.com") ∧ r.incl = true ∧ r.role = Role.to) :=
  ⟨by decide,
   ((C7_reply_idempotent [] { fromEmail := str "Ana@x.com" } []).2 (by decide)).2⟩

theorem C6_failure_witness :
    (runComplete Action.tasks (str "k") (str "c") id id (Except.error (str "boom")) 5
        (runStart Action.tasks 5 { emailKey := str "k" }) {}).ui.err = str "boom" ∧
    Action.tasks ≠ Action.summarize ∧
    (runComplete Action.tasks (str "k") (str "c") id id (Except.error (str "boom")) 5
        (runStart Action.tasks 5 { emailKey := str "k" }) {}).ui.resultSlots
      = setSlotText 5 0 (setSlotHtml 5 0 (({ emailKey := str "k" } : UiState)).resultSlots []) [] :=
  ⟨(C6_failure_amended Action.tasks (str "k") (str "c") (str "boom") id id 5
      { emailKey := str "k" } {}).1,
   by decide,
   (C6_failure_amended Action.tasks (str "k") (str "c") (str "boom") id id 5
      { emailKey := str "k" } {}).2.2.2.2.2 (by decide)⟩

/-! ### C5: the auto-summary throttle and in-flight guard -/

theorem alGetA_alSet_self (m : List (Str × AutoState)) (k : Str) (v : AutoState) :
    alGetA (alSet m k v) k = v := by
  unfold alGetA
  rw [alLookup_alSet_self]
  rfl

theorem alGetA_alSet_ne (m : List (Str × AutoState)) (k k' : Str) (v : AutoState)
    (h : k' ≠ k) : alGetA (alSet m k v) k' = alGetA m k' := by
  unfold alGetA
  rw [alLookup_alSet_ne _ _ _ _ h]

theorem trTimes_cons (e : AutoEvent) (es : List AutoEvent) :
    trTimes (e :: es) = trTimes [e] ++ trTimes es := by
  cases e <;> rfl

theorem inv_states_clear (k k2 : Str) (m : List (Str × AutoState)) (x : Nat)
    (h2 : (alGetA m k).lastAttempt = x) :
    (alGetA (alSet m k2 { alGetA m k2 with inflight := false }) k).lastAttempt = x := by
  by_cases hk : k2 = k
  · subst hk
    rw [alGetA_alSet_self]
    exact h2
  · rw [alGetA_alSet_ne _ _ _ _ (Ne.symm hk)]
    exact h2

theorem autoStep_inv (k : Str) (s : AutoModel) (e : AutoEvent)
    (htime : ∀ t ∈ trTimes [e], 0 < t)
    (h1 : List.Chain' (fun a b => a + 30000 ≤ b) (startTimes k s))
    (h2 : (alGetA s.states k).lastAttempt = (startTimes k s).getLastD 0)
    (h3 : ∀ t ∈ startTimes k s, 0 < t) :
    List.Chain' (fun a b => a + 30000 ≤ b) (startTimes k (autoStep s e)) ∧
    (alGetA (autoStep s e).states k).lastAttempt
      = (startTimes k (autoStep s e)).getLastD 0 ∧
    (∀ t ∈ startTimes k (autoStep s e), 0 < t) := by
  cases e with
  | effectRun key now convId summaries rawBody body =>
      have hnow : 0 < now := htime now (by
        show now ∈ [now]
        exact List.mem_singleton_self now)
      simp only [autoStep]
      split
      · exact ⟨h1, h2, h3⟩
      split
      · exact ⟨h1, h2, h3⟩
      split
      · exact ⟨h1, h2, h3⟩
      split
      · exact ⟨h1, h2, h3⟩
      split
      · exact ⟨h1, h2, h3⟩
      split
      · exact ⟨h1, h2, h3⟩
      next hth =>
      by_cases hkey : key = k
      · subst hkey
        have hst : startTimes key
            { s with
              currentKey := key
              states := alSet s.states key { inflight := true, lastAttempt := now }
              pending := some key
              starts := s.starts ++ [(key, now)] }
            = startTimes key s ++ [now] := by
          simp [startTimes, List.filter_append]
        refine ⟨?_, ?_, ?_⟩
        · rw [hst, List.chain'_append]
          refine ⟨h1, List.chain'_singleton _, ?_⟩
          intro x hx y hy
          have hy' : now = y := by simpa using hy
          subst hy'
          have hxm : x ∈ startTimes key s := List.mem_of_getLast?_eq_some hx
          have hxpos : 0 < x := h3 x hxm
          have hla : (alGetA s.states key).lastAttempt = x := by
            rw [h2, List.getLastD_eq_getLast?, hx]
            rfl
          have : ¬((alGetA s.states key).lastAttempt ≠ 0
              ∧ now - (alGetA s.states key).lastAttempt < 30000) := hth
          rw [hla] at this
          omega
        · rw [hst]
          rw [alGetA_alSet_self, List.getLastD_concat]
        · rw [hst]
          intro t ht
          rcases List.mem_append.mp ht with h | h
          · exact h3 t h
          · have : t = now := by simpa using h
            omega
      · have hst : startTimes k
            { s with
              currentKey := key
              states := alSet s.states key { inflight := true, lastAttempt := now }
              pending := some key
              starts := s.starts ++ [(key, now)] }
            = startTimes k s := by
          simp [startTimes, List.filter_append, hkey]
        rw [hst]
        rw [alGetA_alSet_ne _ _ _ _ (fun hh => hkey hh.symm)]
        exact ⟨h1, h2, h3⟩
  | timerFire =>
      simp only [autoStep]
      split
      · exact ⟨h1, h2, h3⟩
      next k2 hpend =>
        split
        · exact ⟨h1, h2, h3⟩
        · exact ⟨h1, inv_states_clear k k2 s.states _ h2, h3⟩
  | runDone k2 =>
      simp only [autoStep]
      split
      · exact ⟨h1, inv_states_clear k k2 s.states _ h2, h3⟩
      · exact ⟨h1, h2, h3⟩
  | cleanup k2 =>
      simp only [autoStep]
      exact ⟨h1, inv_states_clear k k2 s.states _ h2, h3⟩

theorem autoRun_inv (k : Str) : ∀ (tr : List AutoEvent) (s : AutoModel),
    (∀ t ∈ trTimes tr, 0 < t) →
    List.Chain' (fun a b => a + 30000 ≤ b) (startTimes k s) →
    (alGetA s.states k).lastAttempt = (startTimes k s).getLastD 0 →
    (∀ t ∈ startTimes k s, 0 < t) →
    List.Chain' (fun a b => a + 30000 ≤ b) (startTimes k (autoRun s tr)) := by
  intro tr
  induction tr with
  | nil => intro s _ h1 _ _; exact h1
  | cons e es ih =>
      intro s ht h1 h2 h3
      have ht1 : ∀ t ∈ trTimes [e], 0 < t := by
        intro t hm
        exact ht t (by rw [trTimes_cons]; exact List.mem_append_left _ hm)
      have ht2 : ∀ t ∈ trTimes es, 0 < t := by
        intro t hm
        exact ht t (by rw [trTimes_cons]; exact List.mem_append_right _ hm)
      have hstep := autoStep_inv k s e ht1 h1 h2 h3
      exact ih (autoStep s e) ht2 hstep.1 hstep.2.1 hstep.2.2

theorem chain_le_trans (l : List Nat) (a : Nat)
    (h : List.Chain (fun a b => a + 30000 ≤ b) a l) : ∀ b ∈ l, a + 30000 ≤ b := by
  induction l generalizing a with
  | nil => intro b hb; cases hb
  | cons c t ih =>
      intro b hb
      rw [List.chain_cons] at h
      rcases List.mem_cons.mp hb with rfl | hb
      · exact h.1
      · have := ih c h.2 b hb
        omega

theorem chain_le_pairwise : ∀ l : List Nat,
    List.Chain' (fun a b => a + 30000 ≤ b) l →
    List.Pairwise (fun a b => a + 30000 ≤ b) l := by
  intro l
  induction l with
  | nil => intro _; exact List.Pairwise.nil
  | cons a t ih =>
      intro h
      have hch : List.Chain (fun a b => a + 30000 ≤ b) a t := h
      have hct : List.Chain' (fun a b => a + 30000 ≤ b) t := by
        cases t with
        | nil => trivial
        | cons c t' => exact (List.chain_cons.mp hch).2
      exact List.Pairwise.cons (chain_le_trans t a hch) (ih hct)

theorem autoStep_guard_inv (k : Str) (s : AutoModel) (e : AutoEvent)
    (he : e ≠ AutoEvent.cleanup k)
    (hI1 : k ∈ s.running → (alGetA s.states k).inflight = true)
    (hI2 : s.pending = some k → (alGetA s.states k).inflight = true ∧ k ∉ s.running)
    (hI3 : s.running.count k ≤ 1) :
    (k ∈ (autoStep s e).running → (alGetA (autoStep s e).states k).inflight = true) ∧
    ((autoStep s e).pending = some k →
      (alGetA (autoStep s e).states k).inflight = true ∧ k ∉ (autoStep s e).running) ∧
    (autoStep s e).running.count k ≤ 1 := by
  cases e with
  | effectRun key now convId summaries rawBody body =>
      simp only [autoStep]
      split
      · exact ⟨hI1, fun hp => hI2 hp, hI3⟩
      split
      · exact ⟨hI1, fun hp => hI2 hp, hI3⟩
      split
      · exact ⟨hI1, fun hp => hI2 hp, hI3⟩
      split
      · exact ⟨hI1, fun hp => hI2 hp, hI3⟩
      split
      next hinf => exact ⟨hI1, fun hp => hI2 hp, hI3⟩
      next hinf =>
      split
      · exact ⟨hI1, fun hp => hI2 hp, hI3⟩
      by_cases hkey : key = k
      · subst hkey
        have hnin : key ∉ s.running := fun hm => hinf (hI1 hm)
        refine ⟨?_, ?_, hI3⟩
        · intro _
          rw [alGetA_alSet_self]
        · intro _
          rw [alGetA_alSet_self]
          exact ⟨rfl, hnin⟩
      · refine ⟨?_, ?_, hI3⟩
        · intro hm
          rw [alGetA_alSet_ne _ _ _ _ (fun hh => hkey hh.symm)]
          exact hI1 hm
        · intro hp
          have : key = k := by
            have := Option.some.inj hp
            exact this
          exact absurd this hkey
  | timerFire =>
      simp only [autoStep]
      split
      · exact ⟨hI1, hI2, hI3⟩
      next k2 hpend =>
        split
        next hcur =>
          by_cases hk2 : k2 = k
          · subst hk2
            have h2 := hI2 hpend
            refine ⟨fun _ => h2.1, fun hp => Option.noConfusion hp, ?_⟩
            rw [List.count_append, List.count_singleton_self]
            have : s.running.count k2 = 0 := by
              by_contra hc
              exact h2.2 (List.count_pos_iff.mp (Nat.pos_of_ne_zero hc))
            omega
          · refine ⟨?_, fun hp => Option.noConfusion hp, ?_⟩
            · intro hm
              rcases List.mem_append.mp hm with hm | hm
              · exact hI1 hm
              · have : k = k2 := by simpa using hm
                exact absurd this.symm hk2
            · rw [List.count_append]
              have : List.count k [k2] = 0 :=
                List.count_eq_zero_of_not_mem
                  (fun hm => hk2 ((List.mem_singleton.mp hm).symm))
              omega
        next hcur =>
          by_cases hk2 : k2 = k
          · subst hk2
            have h2 := hI2 hpend
            refine ⟨fun hm => absurd hm h2.2, fun hp => Option.noConfusion hp, hI3⟩
          · refine ⟨?_, fun hp => Option.noConfusion hp, hI3⟩
            intro hm
            rw [alGetA_alSet_ne _ _ _ _ (fun hh => hk2 hh.symm)]
            exact hI1 hm
  | runDone k2 =>
      simp only [autoStep]
      split
      next hmem =>
        by_cases hk2 : k2 = k
        · subst hk2
          have hcnt : (s.running.erase k2).count k2 = 0 := by
            rw [List.count_erase_self]
            have : 1 ≤ s.running.count k2 := List.count_pos_iff.mpr hmem
            omega
          have hnin : k2 ∉ s.running.erase k2 := by
            intro hm
            have := List.count_pos_iff.mpr hm
            omega
          refine ⟨fun hm => absurd hm hnin, ?_, by dsimp only; omega⟩
          intro hp
          exact absurd hmem (hI2 hp).2
        · refine ⟨?_, ?_, ?_⟩
          · intro hm
            rw [alGetA_alSet_ne _ _ _ _ (fun hh => hk2 hh.symm)]
            exact hI1 (List.mem_of_mem_erase hm)
          · intro hp
            rw [alGetA_alSet_ne _ _ _ _ (fun hh => hk2 hh.symm)]
            have h2 := hI2 hp
            exact ⟨h2.1, fun hm => h2.2 (List.mem_of_mem_erase hm)⟩
          · exact le_trans ((List.erase_sublist _ _).count_le k) hI3
      · exact ⟨hI1, hI2, hI3⟩
  | cleanup k2 =>
      simp only [autoStep]
      have hk2 : k2 ≠ k := fun hh => he (by rw [hh])
      refine ⟨?_, fun hp => Option.noConfusion hp, hI3⟩
      intro hm
      rw [alGetA_alSet_ne _ _ _ _ (fun hh => hk2 hh.symm)]
      exact hI1 hm

theorem autoRun_guard_inv (k : Str) : ∀ (tr : List AutoEvent) (s : AutoModel),
    (∀ e ∈ tr, e ≠ AutoEvent.cleanup k) →
    (k ∈ s.running → (alGetA s.states k).inflight = true) →
    (s.pending = some k → (alGetA s.states k).inflight = true ∧ k ∉ s.running) →
    s.running.count k ≤ 1 →
    (k ∈ (autoRun s tr).running → (alGetA (autoRun s tr).states k).inflight = true) := by
  intro tr
  induction tr with
  | nil => intro s _ hI1 _ _; exact hI1
  | cons e es ih =>
      intro s he hI1 hI2 hI3
      have hstep := autoStep_guard_inv k s e (he e (List.mem_cons_self _ _)) hI1 hI2 hI3
      exact ih (autoStep s e) (fun x hx => he x (List.mem_cons_of_mem _ hx))
        hstep.1 hstep.2.1 hstep.2.2

theorem starts_of_inflight (s : AutoModel) (key : Str) (now : Nat) (convId : Str)
    (summaries : SummaryMap) (rawBody body : Str)
    (hinf : (alGetA s.states key).inflight = true) :
    (autoStep s (AutoEvent.effectRun key now convId summaries rawBody body)).starts
      = s.starts := by
  simp only [autoStep, hinf]
  split
  · rfl
  split
  · rfl
  split
  · rfl
  split
  · rfl
  rfl

/-- C5 counterexample: the effect cleanup clears the in-flight flag while
`run("summarize")` is still awaiting, so a later effect execution (30 s
after the first) starts a second attempt for the same identity while the
first is still in flight: after
`effectRun k@1000, timerFire, cleanup k` the key is still `running`, yet
the effect at `t = 31001` logs a second start. -/
theorem C5_counterexample :
    (str "k") ∈ (autoRun {}
        [AutoEvent.effectRun (str "k") 1000 (str "c") [] (str "hi") [],
         AutoEvent.timerFire,
         AutoEvent.cleanup (str "k")]).running ∧
    (autoRun {}
        [AutoEvent.effectRun (str "k") 1000 (str "c") [] (str "hi") [],
         AutoEvent.timerFire,
         AutoEvent.cleanup (str "k")]).starts = [(str "k", 1000)] ∧
    (autoStep (autoRun {}
        [AutoEvent.effectRun (str "k") 1000 (str "c") [] (str "hi") [],
         AutoEvent.timerFire,
         AutoEvent.cleanup (str "k")])
        (AutoEvent.effectRun (str "k") 31001 (str "c") [] (str "hi") [])).starts
      = [(str "k", 1000), (str "k", 31001)] := by
  refine ⟨by decide, by decide, by decide⟩

/-- C5 amended: (1) an automatic summarize attempt starts only when the
cached summary read is empty and the trimmed body is non-empty, the
per-key in-flight flag is clear and the throttle allows it; (2) in any
trace whose effect executions carry positive clock values, the start
times of any fixed key are pairwise at least 30 000 ms apart; (3) as long
as no effect cleanup runs for the key, no second attempt starts while a
`run("summarize")` for that key is in flight — the cleanup path is
exactly what invalidates the in-flight guard (see the counterexample). -/
theorem C5_throttle_amended :
    (∀ (s : AutoModel) (key : Str) (now : Nat) (convId : Str)
        (summaries : SummaryMap) (rawBody body : Str),
      (autoStep s (AutoEvent.effectRun key now convId summaries rawBody body)).starts
          ≠ s.starts →
      loadSummary now summaries key = [] ∧ jsTrim (jsOr rawBody body) ≠ [] ∧
        (alGetA s.states key).inflight = false ∧
        ((alGetA s.states key).lastAttempt = 0 ∨
          30000 ≤ now - (alGetA s.states key).lastAttempt)) ∧
    (∀ (tr : List AutoEvent) (k : Str), (∀ t ∈ trTimes tr, 0 < t) →
      List.Pairwise (fun a b => a + 30000 ≤ b) (startTimes k (autoRun {} tr))) ∧
    (∀ (tr : List AutoEvent) (k : Str) (now : Nat) (convId : Str)
        (summaries : SummaryMap) (rawBody body : Str),
      (∀ e ∈ tr, e ≠ AutoEvent.cleanup k) →
      k ∈ (autoRun {} tr).running →
      (autoStep (autoRun {} tr)
          (AutoEvent.effectRun k now convId summaries rawBody body)).starts
        = (autoRun {} tr).starts) := by
  refine ⟨?_, ?_, ?_⟩
  · intro s key now convId summaries rawBody body h
    revert h
    simp only [autoStep]
    split
    · intro h
      exact absurd rfl h
    split
    · intro h
      exact absurd rfl h
    split
    · intro h
      exact absurd rfl h
    next hsum =>
    split
    · intro h
      exact absurd rfl h
    next hbody =>
    split
    · intro h
      exact absurd rfl h
    next hinf =>
    split
    · intro h
      exact absurd rfl h
    next hth =>
    intro _
    refine ⟨not_not.mp hsum, hbody, ?_, by omega⟩
    cases hb : (alGetA s.states key).inflight
    · rfl
    · exact absurd hb hinf
  · intro tr k ht
    refine chain_le_pairwise _ (autoRun_inv k tr {} ht ?_ ?_ ?_)
    · trivial
    · rfl
    · intro t htm
      exact absurd htm (List.not_mem_nil t)
  · intro tr k now convId summaries rawBody body he hm
    refine starts_of_inflight _ _ _ _ _ _ _ ?_
    refine autoRun_guard_inv k tr {} he ?_ ?_ ?_ hm
    · intro hx
      exact absurd hx (List.not_mem_nil k)
    · intro hp
      exact Option.noConfusion hp
    · simp

theorem C5_witness :
    (∀ t ∈ trTimes
        [AutoEvent.effectRun (str "k") 5 (str "c") [] (str "h") [],
         AutoEvent.effectRun (str "k") 40005 (str "c") [] (str "h") []], 0 < t) ∧
    List.Pairwise (fun a b => a + 30000 ≤ b)
      (startTimes (str "k") (autoRun {}
        [AutoEvent.effectRun (str "k") 5 (str "c") [] (str "h") [],
         AutoEvent.effectRun (str "k") 40005 (str "c") [] (str "h") []])) :=
  ⟨by decide,
   C5_throttle_amended.2.1
     [AutoEvent.effectRun (str "k") 5 (str "c") [] (str "h") [],
      AutoEvent.effectRun (str "k") 40005 (str "c") [] (str "h") []]
     (str "k") (by decide)⟩

/-! ### C9: marker-block replacement -/

theorem isPrefixOf_iff_ex (p : Str) : ∀ s : Str,
    List.isPrefixOf p s = true ↔ ∃ t, p ++ t = s := by
  induction p with
  | nil =>
      intro s
      simp
  | cons c p' ih =>
      intro s
      cases s with
      | nil =>
          simp
      | cons d s' =>
          show (c == d && List.isPrefixOf p' s') = true ↔ _
          rw [Bool.and_eq_true, beq_iff_eq, ih]
          constructor
          · rintro ⟨rfl, t, rfl⟩
            exact ⟨t, rfl⟩
          · rintro ⟨t, ht⟩
            rw [List.cons_append] at ht
            injection ht with h1 h2
            exact ⟨h1, t, h2⟩

theorem countOcc_nil_of_ne (sep : Str) (hsep : sep ≠ []) : countOcc sep [] = 0 := by
  cases sep with
  | nil => exact absurd rfl hsep
  | cons c t => rfl

theorem ifP_le (sep x b : Str) :
    (if List.isPrefixOf sep x then 1 else 0)
      ≤ (if List.isPrefixOf sep (x ++ b) then 1 else 0) := by
  by_cases hp : List.isPrefixOf sep x = true
  · have hp2 : List.isPrefixOf sep (x ++ b) = true := by
      rcases (isPrefixOf_iff_ex _ _).mp hp with ⟨t, ht⟩
      refine (isPrefixOf_iff_ex _ _).mpr ⟨t ++ b, ?_⟩
      rw [← List.append_assoc, ht]
    rw [if_pos hp, if_pos hp2]
  · rw [if_neg hp]
    exact Nat.zero_le _

theorem countOcc_append_ge_right (sep : Str) : ∀ (a b : Str),
    countOcc sep b ≤ countOcc sep (a ++ b) := by
  intro a b
  induction a with
  | nil => exact Nat.le_refl _
  | cons c a' ih =>
      simp only [List.cons_append, countOcc, List.append_eq]
      omega

theorem countOcc_append_ge_left (sep : Str) (hsep : sep ≠ []) : ∀ (a b : Str),
    countOcc sep a ≤ countOcc sep (a ++ b) := by
  intro a b
  induction a with
  | nil =>
      rw [countOcc_nil_of_ne sep hsep]
      exact Nat.zero_le _
  | cons c a' ih =>
      simp only [List.cons_append, countOcc, List.append_eq]
      have hx := ifP_le sep (c :: a') b
      simp only [List.cons_append] at hx
      omega

theorem countOcc_split_ge (sep : Str) (hsep : sep ≠ []) : ∀ (a b : Str),
    countOcc sep a + 1 + countOcc sep b ≤ countOcc sep (a ++ (sep ++ b)) := by
  intro a b
  induction a with
  | nil =>
      rw [countOcc_nil_of_ne sep hsep]
      cases sep with
      | nil => exact absurd rfl hsep
      | cons c sp =>
          show _ ≤ countOcc (c :: sp) (c :: (sp ++ b))
          simp only [countOcc]
          have h1 : List.isPrefixOf (c :: sp) (c :: (sp ++ b)) = true :=
            (isPrefixOf_iff_ex _ _).mpr ⟨b, rfl⟩
          rw [if_pos h1]
          have h2 := countOcc_append_ge_right (c :: sp) sp b
          omega
  | cons c a' ih =>
      simp only [List.cons_append, countOcc, List.append_eq]
      have hx := ifP_le sep (c :: a') (sep ++ b)
      simp only [List.cons_append] at hx
      omega

theorem countOcc_append_nospan (sep b : Str) (hsep : sep ≠ []) : ∀ a : Str,
    (∀ a2 : Str, a2 ≠ [] → a2 <:+ a →
      List.isPrefixOf sep (a2 ++ b) = List.isPrefixOf sep a2) →
    countOcc sep (a ++ b) = countOcc sep a + countOcc sep b := by
  intro a
  induction a with
  | nil =>
      intro _
      rw [countOcc_nil_of_ne sep hsep]
      show countOcc sep b = 0 + countOcc sep b
      omega
  | cons c a' ih =>
      intro hns
      have hhead : List.isPrefixOf sep ((c :: a') ++ b) = List.isPrefixOf sep (c :: a') :=
        hns (c :: a') (by simp) (List.suffix_refl _)
      have htail := ih (fun a2 h1 h2 => hns a2 h1 (h2.trans (List.suffix_cons c a')))
      simp only [List.cons_append, countOcc, List.append_eq]
      simp only [List.cons_append] at hhead
      simp only [hhead, htail]
      omega

theorem nospan_of_drop (sep b : Str)
    (hd : ∀ d, 0 < d → d < sep.length → List.isPrefixOf (List.drop d sep) b = false) :
    ∀ a2 : Str, a2 ≠ [] → List.isPrefixOf sep (a2 ++ b) = List.isPrefixOf sep a2 := by
  intro a2 hne
  by_cases hlen : sep.length ≤ a2.length
  · by_cases hp : List.isPrefixOf sep a2 = true
    · rw [hp]
      rcases (isPrefixOf_iff_ex _ _).mp hp with ⟨t, ht⟩
      exact (isPrefixOf_iff_ex _ _).mpr ⟨t ++ b, by rw [← List.append_assoc, ht]⟩
    · cases hq : List.isPrefixOf sep (a2 ++ b) with
      | false => rw [Bool.eq_false_iff.mpr hp]
      | true =>
          exfalso
          rcases (isPrefixOf_iff_ex _ _).mp hq with ⟨t, ht⟩
          have h1 : List.take sep.length (sep ++ t) = sep := List.take_left sep t
          rw [ht, List.take_append_of_le_length hlen] at h1
          refine hp ((isPrefixOf_iff_ex _ _).mpr ⟨List.drop sep.length a2, ?_⟩)
          have h2 := List.take_append_drop sep.length a2
          rw [h1] at h2
          exact h2
  · push_neg at hlen
    have hr : List.isPrefixOf sep a2 = false := by
      cases hq : List.isPrefixOf sep a2 with
      | false => rfl
      | true =>
          exfalso
          rcases (isPrefixOf_iff_ex _ _).mp hq with ⟨t, ht⟩
          have := congrArg List.length ht
          simp only [List.length_append] at this
          omega
    have hl : List.isPrefixOf sep (a2 ++ b) = false := by
      cases hq : List.isPrefixOf sep (a2 ++ b) with
      | false => rfl
      | true =>
          exfalso
          rcases (isPrefixOf_iff_ex _ _).mp hq with ⟨t, ht⟩
          have hdrop : List.drop a2.length (sep ++ t) = List.drop a2.length (a2 ++ b) := by
            rw [ht]
          rw [List.drop_append_of_le_length (le_of_lt hlen), List.drop_left] at hdrop
          have hbp : List.isPrefixOf (List.drop a2.length sep) b = true :=
            (isPrefixOf_iff_ex _ _).mpr ⟨t, hdrop⟩
          have h0 : 0 < a2.length := List.length_pos.mpr hne
          rw [hd a2.length h0 hlen] at hbp
          exact Bool.noConfusion hbp
    rw [hl, hr]

theorem includesStr_true_iff (pat : Str) : ∀ s : Str,
    includesStr pat s = true ↔ 0 < countOcc pat s := by
  intro s
  induction s with
  | nil =>
      cases h : List.isPrefixOf pat [] with
      | false => simp [includesStr, countOcc, h]
      | true => simp [includesStr, countOcc, h]
  | cons c rest ih =>
      cases h : List.isPrefixOf pat (c :: rest) with
      | false =>
          show (List.isPrefixOf pat (c :: rest) || includesStr pat rest) = true
              ↔ 0 < (if List.isPrefixOf pat (c :: rest) then 1 else 0) + countOcc pat rest
          rw [h, Bool.false_or, if_neg Bool.false_ne_true, ih]
          omega
      | true =>
          show (List.isPrefixOf pat (c :: rest) || includesStr pat rest) = true
              ↔ 0 < (if List.isPrefixOf pat (c :: rest) then 1 else 0) + countOcc pat rest
          rw [h, Bool.true_or, if_pos rfl]
          constructor
          · intro _
            omega
          · intro _
            rfl

theorem splitHead_no_occ (sep : Str) : ∀ t : Str,
    countOcc sep t = 0 → splitHead sep t = t := by
  intro t
  induction t with
  | nil =>
      intro _
      rfl
  | cons c rest ih =>
      intro h
      simp only [countOcc] at h
      split at h
      next hq => omega
      next hq =>
        show (if List.isPrefixOf sep (c :: rest) then [] else c :: splitHead sep rest)
            = c :: rest
        rw [if_neg hq, ih (by omega)]

theorem split_at_unique (sep tail : Str) (hsep : sep ≠ []) : ∀ pre : Str,
    countOcc sep (pre ++ (sep ++ tail)) = 1 →
    splitHead sep (pre ++ (sep ++ tail)) = pre ∧
    splitTail sep (pre ++ (sep ++ tail)) = some tail := by
  intro pre
  induction pre with
  | nil =>
      intro _
      cases sep with
      | nil => exact absurd rfl hsep
      | cons c sp =>
          have hp : List.isPrefixOf (c :: sp) (c :: (sp ++ tail)) = true :=
            (isPrefixOf_iff_ex _ _).mpr ⟨tail, rfl⟩
          constructor
          · show (if List.isPrefixOf (c :: sp) (c :: (sp ++ tail)) then []
                else c :: splitHead (c :: sp) (sp ++ tail)) = []
            rw [if_pos hp]
          · show (if List.isPrefixOf (c :: sp) (c :: (sp ++ tail)) then
                  some (List.drop (c :: sp).length (c :: (sp ++ tail)))
                else splitTail (c :: sp) (sp ++ tail)) = some tail
            rw [if_pos hp]
            congr 1
            show List.drop (sp.length + 1) (c :: (sp ++ tail)) = tail
            rw [List.drop_succ_cons, List.drop_left]
  | cons c pre' ih =>
      intro h
      simp only [List.cons_append, countOcc, List.append_eq] at h
      have hocc := countOcc_split_ge sep hsep pre' tail
      have hfalse : ¬ List.isPrefixOf sep (c :: (pre' ++ (sep ++ tail))) = true := by
        intro hq
        rw [if_pos hq] at h
        omega
      rw [if_neg hfalse] at h
      have hih := ih (by omega)
      constructor
      · show (if List.isPrefixOf sep (c :: (pre' ++ (sep ++ tail))) then []
            else c :: splitHead sep (pre' ++ (sep ++ tail))) = c :: pre'
        rw [if_neg hfalse, hih.1]
      · show (if List.isPrefixOf sep (c :: (pre' ++ (sep ++ tail))) then
              some (List.drop sep.length (c :: (pre' ++ (sep ++ tail))))
            else splitTail sep (pre' ++ (sep ++ tail))) = some tail
        rw [if_neg hfalse, hih.2]

theorem hd_S_A (y : Str) : ∀ d, 0 < d → d < AI_BLOCK_START.length →
    List.isPrefixOf (List.drop d AI_BLOCK_START)
      ((AI_BLOCK_START ++ str "<div data-icc-ai=\x221\x22>") ++ y) = false := by
  intro d h0 hlen
  have h19 : d < 19 := hlen
  interval_cases d <;> rfl

theorem hd_S_B (y : Str) : ∀ d, 0 < d → d < AI_BLOCK_START.length →
    List.isPrefixOf (List.drop d AI_BLOCK_START)
      ((str "</div>" ++ AI_BLOCK_END) ++ y) = false := by
  intro d h0 hlen
  have h19 : d < 19 := hlen
  interval_cases d <;> rfl

theorem hd_E_A (y : Str) : ∀ d, 0 < d → d < AI_BLOCK_END.length →
    List.isPrefixOf (List.drop d AI_BLOCK_END)
      ((AI_BLOCK_START ++ str "<div data-icc-ai=\x221\x22>") ++ y) = false := by
  intro d h0 hlen
  have h17 : d < 17 := hlen
  interval_cases d <;> rfl

theorem hd_E_B (y : Str) : ∀ d, 0 < d → d < AI_BLOCK_END.length →
    List.isPrefixOf (List.drop d AI_BLOCK_END)
      ((str "</div>" ++ AI_BLOCK_END) ++ y) = false := by
  intro d h0 hlen
  have h17 : d < 17 := hlen
  interval_cases d <;> rfl

theorem hns_S_A (y : Str) : ∀ a2 : Str, a2 ≠ [] →
    a2 <:+ (AI_BLOCK_START ++ str "<div data-icc-ai=\x221\x22>") →
    List.isPrefixOf AI_BLOCK_START (a2 ++ y) = List.isPrefixOf AI_BLOCK_START a2 := by
  intro a2 hne hsuf
  have hlenA : (AI_BLOCK_START ++ str "<div data-icc-ai=\x221\x22>").length = 40 := rfl
  have h1 : a2.length ≤ 40 := hlenA ▸ hsuf.length_le
  have h0 : 0 < a2.length := List.length_pos.mpr hne
  have heq := List.suffix_iff_eq_drop.mp hsuf
  rw [hlenA] at heq
  obtain ⟨n, hn, ha2⟩ : ∃ n, n ≤ 39 ∧
      a2 = List.drop n (AI_BLOCK_START ++ str "<div data-icc-ai=\x221\x22>") :=
    ⟨40 - a2.length, by omega, heq⟩
  subst ha2
  interval_cases n <;> first
  | rfl
  | exact (isPrefixOf_iff_ex _ _).mpr ⟨y, rfl⟩

theorem hns_S_B (y : Str) : ∀ a2 : Str, a2 ≠ [] →
    a2 <:+ (str "</div>" ++ AI_BLOCK_END) →
    List.isPrefixOf AI_BLOCK_START (a2 ++ y) = List.isPrefixOf AI_BLOCK_START a2 := by
  intro a2 hne hsuf
  have hlenB : (str "</div>" ++ AI_BLOCK_END).length = 23 := rfl
  have h1 : a2.length ≤ 23 := hlenB ▸ hsuf.length_le
  have h0 : 0 < a2.length := List.length_pos.mpr hne
  have heq := List.suffix_iff_eq_drop.mp hsuf
  rw [hlenB] at heq
  obtain ⟨n, hn, ha2⟩ : ∃ n, n ≤ 22 ∧
      a2 = List.drop n (str "</div>" ++ AI_BLOCK_END) :=
    ⟨23 - a2.length, by omega, heq⟩
  subst ha2
  interval_cases n <;> first
  | rfl
  | exact (isPrefixOf_iff_ex _ _).mpr ⟨y, rfl⟩

theorem hns_E_A (y : Str) : ∀ a2 : Str, a2 ≠ [] →
    a2 <:+ (AI_BLOCK_START ++ str "<div data-icc-ai=\x221\x22>") →
    List.isPrefixOf AI_BLOCK_END (a2 ++ y) = List.isPrefixOf AI_BLOCK_END a2 := by
  intro a2 hne hsuf
  have hlenA : (AI_BLOCK_START ++ str "<div data-icc-ai=\x221\x22>").length = 40 := rfl
  have h1 : a2.length ≤ 40 := hlenA ▸ hsuf.length_le
  have h0 : 0 < a2.length := List.length_pos.mpr hne
  have heq := List.suffix_iff_eq_drop.mp hsuf
  rw [hlenA] at heq
  obtain ⟨n, hn, ha2⟩ : ∃ n, n ≤ 39 ∧
      a2 = List.drop n (AI_BLOCK_START ++ str "<div data-icc-ai=\x221\x22>") :=
    ⟨40 - a2.length, by omega, heq⟩
  subst ha2
  interval_cases n <;> first
  | rfl
  | exact (isPrefixOf_iff_ex _ _).mpr ⟨y, rfl⟩

theorem hns_E_B (y : Str) : ∀ a2 : Str, a2 ≠ [] →
    a2 <:+ (str "</div>" ++ AI_BLOCK_END) →
    List.isPrefixOf AI_BLOCK_END (a2 ++ y) = List.isPrefixOf AI_BLOCK_END a2 := by
  intro a2 hne hsuf
  have hlenB : (str "</div>" ++ AI_BLOCK_END).length = 23 := rfl
  have h1 : a2.length ≤ 23 := hlenB ▸ hsuf.length_le
  have h0 : 0 < a2.length := List.length_pos.mpr hne
  have heq := List.suffix_iff_eq_drop.mp hsuf
  rw [hlenB] at heq
  obtain ⟨n, hn, ha2⟩ : ∃ n, n ≤ 22 ∧
      a2 = List.drop n (str "</div>" ++ AI_BLOCK_END) :=
    ⟨23 - a2.length, by omega, heq⟩
  subst ha2
  interval_cases n <;> first
  | rfl
  | exact (isPrefixOf_iff_ex _ _).mpr ⟨y, rfl⟩

theorem countOcc_wrap_S (pre inner post : Str)
    (hpre : countOcc AI_BLOCK_START pre = 0)
    (hinner : countOcc AI_BLOCK_START inner = 0)
    (hpost : countOcc AI_BLOCK_START post = 0) :
    countOcc AI_BLOCK_START (pre ++ (wrapAiBlock inner ++ post)) = 1 := by
  have hsep : AI_BLOCK_START ≠ [] := by decide
  have hgroup : pre ++ (wrapAiBlock inner ++ post)
      = pre ++ ((AI_BLOCK_START ++ str "<div data-icc-ai=\x221\x22>")
          ++ (inner ++ ((str "</div>" ++ AI_BLOCK_END) ++ post))) := by
    simp [wrapAiBlock, List.append_assoc]
  rw [hgroup]
  have e1 : countOcc AI_BLOCK_START (pre ++ ((AI_BLOCK_START
          ++ str "<div data-icc-ai=\x221\x22>")
          ++ (inner ++ ((str "</div>" ++ AI_BLOCK_END) ++ post))))
      = countOcc AI_BLOCK_START pre
        + countOcc AI_BLOCK_START ((AI_BLOCK_START ++ str "<div data-icc-ai=\x221\x22>")
            ++ (inner ++ ((str "</div>" ++ AI_BLOCK_END) ++ post))) :=
    countOcc_append_nospan _ _ hsep pre
      (fun a2 hne _ => nospan_of_drop _ _ (hd_S_A _) a2 hne)
  have e2 : countOcc AI_BLOCK_START ((AI_BLOCK_START ++ str "<div data-icc-ai=\x221\x22>")
          ++ (inner ++ ((str "</div>" ++ AI_BLOCK_END) ++ post)))
      = countOcc AI_BLOCK_START (AI_BLOCK_START ++ str "<div data-icc-ai=\x221\x22>")
        + countOcc AI_BLOCK_START (inner ++ ((str "</div>" ++ AI_BLOCK_END) ++ post)) :=
    countOcc_append_nospan _ _ hsep _ (hns_S_A _)
  have e3 : countOcc AI_BLOCK_START (inner ++ ((str "</div>" ++ AI_BLOCK_END) ++ post))
      = countOcc AI_BLOCK_START inner
        + countOcc AI_BLOCK_START ((str "</div>" ++ AI_BLOCK_END) ++ post) :=
    countOcc_append_nospan _ _ hsep inner
      (fun a2 hne _ => nospan_of_drop _ _ (hd_S_B _) a2 hne)
  have e4 : countOcc AI_BLOCK_START ((str "</div>" ++ AI_BLOCK_END) ++ post)
      = countOcc AI_BLOCK_START (str "</div>" ++ AI_BLOCK_END)
        + countOcc AI_BLOCK_START post :=
    countOcc_append_nospan _ _ hsep _ (hns_S_B _)
  have hA : countOcc AI_BLOCK_START
      (AI_BLOCK_START ++ str "<div data-icc-ai=\x221\x22>") = 1 := by decide
  have hB : countOcc AI_BLOCK_START (str "</div>" ++ AI_BLOCK_END) = 0 := by decide
  omega

theorem countOcc_wrap_E (pre inner post : Str)
    (hpre : countOcc AI_BLOCK_END pre = 0)
    (hinner : countOcc AI_BLOCK_END inner = 0)
    (hpost : countOcc AI_BLOCK_END post = 0) :
    countOcc AI_BLOCK_END (pre ++ (wrapAiBlock inner ++ post)) = 1 := by
  have hsep : AI_BLOCK_END ≠ [] := by decide
  have hgroup : pre ++ (wrapAiBlock inner ++ post)
      = pre ++ ((AI_BLOCK_START ++ str "<div data-icc-ai=\x221\x22>")
          ++ (inner ++ ((str "</div>" ++ AI_BLOCK_END) ++ post))) := by
    simp [wrapAiBlock, List.append_assoc]
  rw [hgroup]
  have e1 : countOcc AI_BLOCK_END (pre ++ ((AI_BLOCK_START
          ++ str "<div data-icc-ai=\x221\x22>")
          ++ (inner ++ ((str "</div>" ++ AI_BLOCK_END) ++ post))))
      = countOcc AI_BLOCK_END pre
        + countOcc AI_BLOCK_END ((AI_BLOCK_START ++ str "<div data-icc-ai=\x221\x22>")
            ++ (inner ++ ((str "</div>" ++ AI_BLOCK_END) ++ post))) :=
    countOcc_append_nospan _ _ hsep pre
      (fun a2 hne _ => nospan_of_drop _ _ (hd_E_A _) a2 hne)
  have e2 : countOcc AI_BLOCK_END ((AI_BLOCK_START ++ str "<div data-icc-ai=\x221\x22>")
          ++ (inner ++ ((str "</div>" ++ AI_BLOCK_END) ++ post)))
      = countOcc AI_BLOCK_END (AI_BLOCK_START ++ str "<div data-icc-ai=\x221\x22>")
        + countOcc AI_BLOCK_END (inner ++ ((str "</div>" ++ AI_BLOCK_END) ++ post)) :=
    countOcc_append_nospan _ _ hsep _ (hns_E_A _)
  have e3 : countOcc AI_BLOCK_END (inner ++ ((str "</div>" ++ AI_BLOCK_END) ++ post))
      = countOcc AI_BLOCK_END inner
        + countOcc AI_BLOCK_END ((str "</div>" ++ AI_BLOCK_END) ++ post) :=
    countOcc_append_nospan _ _ hsep inner
      (fun a2 hne _ => nospan_of_drop _ _ (hd_E_B _) a2 hne)
  have e4 : countOcc AI_BLOCK_END ((str "</div>" ++ AI_BLOCK_END) ++ post)
      = countOcc AI_BLOCK_END (str "</div>" ++ AI_BLOCK_END)
        + countOcc AI_BLOCK_END post :=
    countOcc_append_nospan _ _ hsep _ (hns_E_B _)
  have hA : countOcc AI_BLOCK_END
      (AI_BLOCK_START ++ str "<div data-icc-ai=\x221\x22>") = 0 := by decide
  have hB : countOcc AI_BLOCK_END (str "</div>" ++ AI_BLOCK_END) = 1 := by decide
  omega

/-- C9: when the draft contains exactly one occurrence of each sentinel
comment (one marked block from a prior insertion) and the freshly
generated content is marker-free, `replaceOrInsertAiBlock` rewrites the
body to `before ++ wrapAiBlock inner ++ after` — the text before the
start marker and after the end marker is unchanged, the old block content
is replaced, and the result again holds exactly one occurrence of each
sentinel, not two concatenated blocks. -/
theorem C9_marker_replace (pre mid post inner : Str)
    (hS : countOcc AI_BLOCK_START
        (pre ++ AI_BLOCK_START ++ mid ++ AI_BLOCK_END ++ post) = 1)
    (hE : countOcc AI_BLOCK_END
        (pre ++ AI_BLOCK_START ++ mid ++ AI_BLOCK_END ++ post) = 1)
    (hiS : countOcc AI_BLOCK_START inner = 0)
    (hiE : countOcc AI_BLOCK_END inner = 0) :
    replaceOrInsertAiBlock (pre ++ AI_BLOCK_START ++ mid ++ AI_BLOCK_END ++ post)
        (wrapAiBlock inner)
      = pre ++ wrapAiBlock inner ++ post ∧
    countOcc AI_BLOCK_START (pre ++ wrapAiBlock inner ++ post) = 1 ∧
    countOcc AI_BLOCK_END (pre ++ wrapAiBlock inner ++ post) = 1 := by
  have hsepS : AI_BLOCK_START ≠ [] := by decide
  have hsepE : AI_BLOCK_END ≠ [] := by decide
  have hassoc : pre ++ AI_BLOCK_START ++ mid ++ AI_BLOCK_END ++ post
      = pre ++ (AI_BLOCK_START ++ (mid ++ (AI_BLOCK_END ++ post))) := by
    simp [List.append_assoc]
  rw [hassoc] at hS hE
  rw [hassoc]
  have hgroup : pre ++ (AI_BLOCK_START ++ (mid ++ (AI_BLOCK_END ++ post)))
      = (pre ++ (AI_BLOCK_START ++ mid)) ++ (AI_BLOCK_END ++ post) := by
    simp [List.append_assoc]
  have hSsplit := countOcc_split_ge AI_BLOCK_START hsepS pre
    (mid ++ (AI_BLOCK_END ++ post))
  have hSpre : countOcc AI_BLOCK_START pre = 0 := by omega
  have hg1 := countOcc_append_ge_right AI_BLOCK_START AI_BLOCK_END post
  have hg2 := countOcc_append_ge_right AI_BLOCK_START mid (AI_BLOCK_END ++ post)
  have hSpost : countOcc AI_BLOCK_START post = 0 := by omega
  have hE2 : countOcc AI_BLOCK_END
      ((pre ++ (AI_BLOCK_START ++ mid)) ++ (AI_BLOCK_END ++ post)) = 1 := by
    rw [← hgroup]
    exact hE
  have hEsplit := countOcc_split_ge AI_BLOCK_END hsepE
    (pre ++ (AI_BLOCK_START ++ mid)) post
  have hEpost : countOcc AI_BLOCK_END post = 0 := by omega
  have hg3 := countOcc_append_ge_left AI_BLOCK_END hsepE pre (AI_BLOCK_START ++ mid)
  have hEpre : countOcc AI_BLOCK_END pre = 0 := by omega
  have hsplitS := split_at_unique AI_BLOCK_START (mid ++ (AI_BLOCK_END ++ post))
    hsepS pre hS
  have hsplitE := split_at_unique AI_BLOCK_END post hsepE
    (pre ++ (AI_BLOCK_START ++ mid)) hE2
  have hin1 : includesStr AI_BLOCK_START
      (pre ++ (AI_BLOCK_START ++ (mid ++ (AI_BLOCK_END ++ post)))) = true :=
    (includesStr_true_iff _ _).mpr (by omega)
  have hin2 : includesStr AI_BLOCK_END
      (pre ++ (AI_BLOCK_START ++ (mid ++ (AI_BLOCK_END ++ post)))) = true :=
    (includesStr_true_iff _ _).mpr (by omega)
  have hwrapS : countOcc AI_BLOCK_START (pre ++ wrapAiBlock inner ++ post) = 1 := by
    rw [List.append_assoc]
    exact countOcc_wrap_S pre inner post hSpre hiS hSpost
  have hwrapE : countOcc AI_BLOCK_END (pre ++ wrapAiBlock inner ++ post) = 1 := by
    rw [List.append_assoc]
    exact countOcc_wrap_E pre inner post hEpre hiE hEpost
  refine ⟨?_, hwrapS, hwrapE⟩
  simp only [replaceOrInsertAiBlock]
  rw [if_pos (by rw [hin1, hin2]; rfl)]
  rw [hsplitS.1]
  have hjs : jsSplitSecond AI_BLOCK_END
      (pre ++ (AI_BLOCK_START ++ (mid ++ (AI_BLOCK_END ++ post)))) = post := by
    simp only [jsSplitSecond]
    rw [hgroup, hsplitE.2]
    exact splitHead_no_occ _ post hEpost
  rw [hjs]

theorem C9_witness :
    (countOcc AI_BLOCK_START
        (str "A" ++ AI_BLOCK_START ++ str "old" ++ AI_BLOCK_END ++ str "B") = 1
      ∧ countOcc AI_BLOCK_END
        (str "A" ++ AI_BLOCK_START ++ str "old" ++ AI_BLOCK_END ++ str "B") = 1
      ∧ countOcc AI_BLOCK_START (str "new") = 0
      ∧ countOcc AI_BLOCK_END (str "new") = 0) ∧
    replaceOrInsertAiBlock
        (str "A" ++ AI_BLOCK_START ++ str "old" ++ AI_BLOCK_END ++ str "B")
        (wrapAiBlock (str "new"))
      = str "A" ++ wrapAiBlock (str "new") ++ str "B" :=
  ⟨⟨by decide, by decide, by decide, by decide⟩,
   (C9_marker_replace (str "A") (str "old") (str "B") (str "new")
      (by decide) (by decide) (by decide) (by decide)).1⟩

end Cockpit
